import Mathlib

set_option maxRecDepth 8000

/-! Shallow embedding of the cashaddr codec in
src/common/utxobased/keymanager/bitcoincashUtils/cashAddress.ts.
Strings are modelled as lists of character codes (Nat). JavaScript bitwise
operators act on 32-bit values, hence the reductions modulo 2 ^ 32 where the
source applies them to possibly larger accumulators. Exact big-number
arithmetic (the BN helper) is modelled by Nat. -/

/-- Address type enumeration from the source (CashaddrTypeEnum). -/
inductive CashaddrTypeEnum where
  | pubkeyhash
  | scripthash
  deriving DecidableEq, Repr

/-- Decoded-address record from the source (BitcoinCashScriptHash): the hash
bytes together with the address type. It has no field for the network. -/
structure BitcoinCashScriptHash where
  scriptHash : List Nat
  type : CashaddrTypeEnum
  deriving DecidableEq, Repr

/-- Error taxonomy of the codec. Constructors correspond to the distinct
throw sites of the source: invalidArgument to the convertBits value check,
invalidPadding to the strict-mode padding throw, mixedCase / invalidFormat /
invalidChecksum / hashSizeMismatch to the decoder throws, unsupportedHashSize
to the getHashSizeBits default branch, invalidVersionByte to the
bad-version-byte throw, invalidType to the getType default branch, and
invalidCharacter to the base32 decoder of the alphabet codec. -/
inductive AddrErr where
  | invalidArgument
  | invalidPadding
  | invalidCharacter
  | mixedCase
  | invalidFormat
  | invalidChecksum
  | unsupportedHashSize
  | invalidVersionByte
  | hashSizeMismatch
  | invalidType
  deriving DecidableEq, Repr

deriving instance DecidableEq for Except

/-- Generator constants of the BCH-style checksum (GENERATOR in the source). -/
def GENERATOR : List Nat :=
  [0x98f2bc8e61, 0x79b76d99e2, 0xf33e5fb3c4, 0xae2eabe2a8, 0x1e4f43e470]

/-- Body of the polymod for-loop from the source. The source iterates i over
the five GENERATOR entries, conditionally xoring each one in when bit i of
topBits is set; the five iterations are unrolled here. -/
def polymodStep (checksum value : Nat) : Nat :=
  let topBits := checksum >>> 35
  let c0 := ((checksum &&& 0x07ffffffff) <<< 5) ^^^ value
  let c1 := if (topBits >>> 0) &&& 1 = 1 then c0 ^^^ 0x98f2bc8e61 else c0
  let c2 := if (topBits >>> 1) &&& 1 = 1 then c1 ^^^ 0x79b76d99e2 else c1
  let c3 := if (topBits >>> 2) &&& 1 = 1 then c2 ^^^ 0xf33e5fb3c4 else c2
  let c4 := if (topBits >>> 3) &&& 1 = 1 then c3 ^^^ 0xae2eabe2a8 else c3
  if (topBits >>> 4) &&& 1 = 1 then c4 ^^^ 0x1e4f43e470 else c4

/-- The polymod function from the source: start from checksum 1, run the loop
body over the data, and xor the result with 1. -/
def polymod (data : List Nat) : Nat :=
  (data.foldl polymodStep 1) ^^^ 1

/-- Lower five bits of each character code of the prefix string
(prefixToArray in the source). -/
def prefixToArray (pfx : List Nat) : List Nat :=
  pfx.map (fun c => c &&& 31)

/-- Inner loop of checksumToArray from the source: push the low five bits,
shift right by five, n times. -/
def checksumChunks : Nat → Nat → List Nat
  | 0, _ => []
  | n + 1, c => (c &&& 31) :: checksumChunks n (c >>> 5)

/-- checksumToArray from the source: eight low-five-bit chunks of the 40-bit
checksum, reversed so the most significant symbol comes first. -/
def checksumToArray (checksum : Nat) : List Nat :=
  (checksumChunks 8 checksum).reverse

/-- Fuel-indexed form of the inner while-loop of convertBits: while bits is
at least toBits, extract the next toBits-wide symbol. Each iteration lowers
bits by toBits, at least one when the loop continues, so a fuel of bits
steps is never exhausted; structural recursion on the fuel keeps the
function kernel-reducible. -/
def emitLoopF : Nat → Nat → Nat → Nat → Nat → List Nat → Nat × List Nat
  | 0, _, _, _, bits, out => (bits, out)
  | fuel + 1, acc, toBits, mask, bits, out =>
    if toBits ≤ bits ∧ 0 < toBits then
      emitLoopF fuel acc toBits mask (bits - toBits)
        (out ++ [(acc >>> (bits - toBits)) &&& mask])
    else (bits, out)

/-- Inner while-loop of convertBits from the source, via emitLoopF with
enough fuel. The source loop does not terminate when toBits = 0 since bits
never decreases; the model exits the loop in that case. Every call in the
source uses toBits = 5 or toBits = 8. -/
def emitLoop (acc toBits mask bits : Nat) (out : List Nat) : Nat × List Nat :=
  emitLoopF bits acc toBits mask bits out

/-- Outer for-loop of convertBits from the source. The value check
value >> fromBits coerces the value to 32 bits first, as does the shift-or
update of the accumulator. -/
def convertBitsLoop (fromBits toBits mask : Nat) :
    List Nat → Nat → Nat → List Nat → Except AddrErr (Nat × Nat × List Nat)
  | [], acc, bits, out => .ok (acc, bits, out)
  | value :: rest, acc, bits, out =>
    if (value % 4294967296) >>> fromBits ≠ 0 then .error .invalidArgument
    else
      let acc1 := ((acc <<< fromBits) % 4294967296) ||| (value % 4294967296)
      let st := emitLoop acc1 toBits mask (bits + fromBits) out
      convertBitsLoop fromBits toBits mask rest acc1 st.1 st.2

/-- convertBits from the source. Calls in the source that omit the strict
flag pass false here. The isNaN guard of the source cannot trigger over
integers and is omitted. -/
def convertBits (data : List Nat) (fromBits toBits : Nat) (strict : Bool) :
    Except AddrErr (List Nat) :=
  let mask := (1 <<< toBits) - 1
  match convertBitsLoop fromBits toBits mask data 0 0 [] with
  | .error e => .error e
  | .ok (acc, bits, result) =>
    if strict = false then
      if 0 < bits then .ok (result ++ [((acc <<< (toBits - bits)) % 4294967296) &&& mask])
      else .ok result
    else if fromBits ≤ bits ∨ ((acc <<< (toBits - bits)) % 4294967296) &&& mask ≠ 0 then
      .error .invalidPadding
    else .ok result

/-- Modelled from the spec: character codes of the 32-character base32
alphabet of the alphabet codec (section 4.1), whose module is not under
src. The spec prints the alphabet as qpzry9x8gf2tvdw0s3jn54khce6mua7 while
declaring 32 characters; that string has 31, and the missing final
character of the cashaddr alphabet is l (code 108), included here. -/
def CHARSET : List Nat :=
  [113, 112, 122, 114, 121, 57, 120, 56, 103, 102,
   50, 116, 118, 100, 119, 48, 115, 51, 106, 110,
   53, 52, 107, 104, 99, 101, 54, 109, 117, 97, 55, 108]

/-- ASCII lowercase on a character code. The source uses the JavaScript
toLowerCase string method; the codec domain is ASCII. -/
def toLowerChar (c : Nat) : Nat :=
  if 65 ≤ c ∧ c ≤ 90 then c + 32 else c

/-- ASCII uppercase on a character code. The source uses the JavaScript
toUpperCase string method; the codec domain is ASCII. -/
def toUpperChar (c : Nat) : Nat :=
  if 97 ≤ c ∧ c ≤ 122 then c - 32 else c

/-- Lowercase of a string, character code by character code. -/
def toLowerStr (s : List Nat) : List Nat :=
  s.map toLowerChar

/-- Uppercase of a string, character code by character code. -/
def toUpperStr (s : List Nat) : List Nat :=
  s.map toUpperChar

/-- Modelled from the spec: base32 encode of the alphabet codec (section
4.1), whose module is not under src. Maps each 5-bit symbol to its alphabet
character; the caller contract is that every value is in range. -/
def b32Encode (symbols : List Nat) : List Nat :=
  symbols.map (fun s => CHARSET.getD s 0)

/-- Modelled from the spec: per-character base32 decode of the alphabet
codec (section 4.1), case-insensitive. -/
def b32DecodeChar (c : Nat) : Option Nat :=
  CHARSET.findIdx? (fun x => x = toLowerChar c)

/-- Modelled from the spec: base32 decode of the alphabet codec (section
4.1), whose module is not under src. Maps each character to its index and
fails with invalidCharacter on a character outside the alphabet. -/
def b32Decode : List Nat → Except AddrErr (List Nat)
  | [] => .ok []
  | c :: rest =>
    match b32DecodeChar c, b32Decode rest with
    | some v, .ok vs => .ok (v :: vs)
    | some _, .error e => .error e
    | none, _ => .error .invalidCharacter

/-- getTypeBits from the source encoder. The switch is exhaustive over the
enumeration, so the default throw of the source is unreachable. -/
def getTypeBits : CashaddrTypeEnum → Nat
  | .pubkeyhash => 0
  | .scripthash => 8

/-- getHashSizeBits from the source encoder: size code from the bit length
of the hash, failing on unsupported sizes. -/
def getHashSizeBits (hash : List Nat) : Except AddrErr Nat :=
  match hash.length * 8 with
  | 160 => .ok 0
  | 192 => .ok 1
  | 224 => .ok 2
  | 256 => .ok 3
  | 320 => .ok 4
  | 384 => .ok 5
  | 448 => .ok 6
  | 512 => .ok 7
  | _ => .error .unsupportedHashSize

/-- The eight zero placeholder symbols from the source encoder. -/
def eight0 : List Nat :=
  [0, 0, 0, 0, 0, 0, 0, 0]

/-- hashToCashAddress from the source. The source receives the hash as a hex
string and converts it through the external buffer library before use; the
model takes the resulting byte buffer directly, matching the spec signature
encode(hash, type, prefix, includePrefix). -/
def hashToCashAddress (hashBuffer : List Nat) (type : CashaddrTypeEnum)
    (cashAddrPfx : List Nat) (includePfx : Bool) : Except AddrErr (List Nat) :=
  match getHashSizeBits hashBuffer with
  | .error e => .error e
  | .ok sizeBits =>
    let versionByte := getTypeBits type + sizeBits
    match convertBits (versionByte :: hashBuffer) 8 5 false with
    | .error e => .error e
    | .ok payloadData =>
      let prefixData := prefixToArray cashAddrPfx ++ [0]
      let checksumData := (prefixData ++ payloadData) ++ eight0
      let payload := payloadData ++ checksumToArray (polymod checksumData)
      .ok (if includePfx then cashAddrPfx ++ 58 :: b32Encode payload else b32Encode payload)

/-- getHashSize from the source decoder: hash bit length from the low three
bits of the version byte, with the unreachable default of the source kept. -/
def getHashSize (versionByte : Nat) : Nat :=
  match versionByte &&& 7 with
  | 0 => 160
  | 1 => 192
  | 2 => 224
  | 3 => 256
  | 4 => 320
  | 5 => 384
  | 6 => 448
  | 7 => 512
  | _ => 0

/-- hasSingleCase from the source decoder: the string equals its lowercase
form or equals its uppercase form. -/
def hasSingleCase (s : List Nat) : Bool :=
  s == toLowerStr s || s == toUpperStr s

/-- validChecksum from the source decoder: the polymod of the prefix salt,
a zero separator and the payload symbols is zero. -/
def validChecksum (pfx payload : List Nat) : Bool :=
  polymod ((prefixToArray pfx ++ [0]) ++ payload) == 0

/-- getType from the source decoder: address type from bits 3 to 6 of the
version byte. -/
def getType (versionByte : Nat) : Except AddrErr CashaddrTypeEnum :=
  match versionByte &&& 120 with
  | 0 => .ok .pubkeyhash
  | 8 => .ok .scripthash
  | _ => .error .invalidType

/-- The split on the colon character (code 58) performed by the source
decoder with the JavaScript split string method. -/
def splitColon : List Nat → List (List Nat)
  | [] => [[]]
  | c :: rest =>
    match splitColon rest with
    | [] => if c = 58 then [[], []] else [[c]]
    | p :: ps => if c = 58 then [] :: p :: ps else (c :: p) :: ps

/-- Candidate loop of the source decoder: the first configured candidate
whose checksum validates the payload, if any. -/
def findValidPfx : List (List Nat) → List Nat → Option (List Nat)
  | [], _ => none
  | p :: rest, payload =>
    if validChecksum p payload then some p else findValidPfx rest payload

/-- Steps of the source decoder after checksum resolution: drop the eight
checksum symbols, regroup 5 to 8 in strict mode, split off the version byte,
then check hash size and derive the type. -/
def decodeTail (payload : List Nat) : Except AddrErr BitcoinCashScriptHash :=
  match convertBits (payload.take (payload.length - 8)) 5 8 true with
  | .error e => .error e
  | .ok [] => .error .invalidVersionByte
  | .ok (versionByte :: hash) =>
    if getHashSize versionByte ≠ hash.length * 8 then .error .hashSizeMismatch
    else
      match getType versionByte with
      | .error e => .error e
      | .ok t => .ok ⟨hash, t⟩

/-- cashAddressToHash from the source: case check, lowercasing, colon split,
base32 decode, checksum resolution with an explicit prefix or over the
candidate list, then the shared tail. An explicit empty prefix piece still
counts as explicit, as in the source where only null selects the loop. -/
def cashAddressToHash (address : List Nat) (cashAddrPfxs : List (List Nat)) :
    Except AddrErr BitcoinCashScriptHash :=
  if hasSingleCase address = false then .error .mixedCase
  else
    let addr := toLowerStr address
    let pieces := splitColon addr
    if 2 < pieces.length then .error .invalidFormat
    else
      let pfxPiece : Option (List Nat) :=
        if pieces.length = 2 then some (pieces.getD 0 []) else none
      let encodedPayload :=
        if pieces.length = 2 then pieces.getD 1 [] else pieces.getD 0 []
      match b32Decode (toLowerStr encodedPayload) with
      | .error e => .error e
      | .ok payload =>
        match pfxPiece with
        | some p =>
          if validChecksum p payload = false then .error .invalidChecksum
          else decodeTail payload
        | none =>
          match findValidPfx cashAddrPfxs payload with
          | none => .error .invalidChecksum
          | some _ => decodeTail payload

/-! Bit-manipulation toolkit. -/

/-- The convertBits mask (1 <<< toBits) - 1 is the usual low-bit mask. -/
theorem maskEq (t : Nat) : (1 <<< t) - 1 = 2 ^ t - 1 := by
  rw [Nat.shiftLeft_eq, one_mul]

/-- Xor distributes under a left shift. -/
theorem xorShiftLeft (a b n : Nat) : (a ^^^ b) <<< n = (a <<< n) ^^^ (b <<< n) := by
  apply Nat.eq_of_testBit_eq
  intro i
  simp only [Nat.testBit_shiftLeft, Nat.testBit_xor]
  by_cases hni : n ≤ i <;> simp [hni]

/-- Xor distributes under a right shift. -/
theorem xorShiftRight (a b n : Nat) : (a ^^^ b) >>> n = (a >>> n) ^^^ (b >>> n) := by
  apply Nat.eq_of_testBit_eq
  intro i
  simp [Nat.testBit_shiftRight, Nat.testBit_xor]

/-- Or distributes under a right shift. -/
theorem orShiftRight (a b n : Nat) : (a ||| b) >>> n = (a >>> n) ||| (b >>> n) := by
  apply Nat.eq_of_testBit_eq
  intro i
  simp [Nat.testBit_shiftRight, Nat.testBit_or]

/-- Reduction modulo a power of two distributes over or. -/
theorem orModTwoPow (a b n : Nat) : (a ||| b) % 2 ^ n = (a % 2 ^ n) ||| (b % 2 ^ n) := by
  apply Nat.eq_of_testBit_eq
  intro i
  by_cases hi : i < n <;> simp [Nat.testBit_mod_two_pow, hi, Bool.and_or_distrib_left]

/-- Reduction modulo a power of two distributes over xor. -/
theorem xorModTwoPow (a b n : Nat) : (a ^^^ b) % 2 ^ n = (a % 2 ^ n) ^^^ (b % 2 ^ n) := by
  apply Nat.eq_of_testBit_eq
  intro i
  by_cases hi : i < n <;> simp [Nat.testBit_mod_two_pow, hi, Bool.and_xor_distrib_left]

/-- A left shift followed by the matching right shift is the identity. -/
theorem shiftLeftRightCancel (a n : Nat) : (a <<< n) >>> n = a := by
  rw [Nat.shiftLeft_eq, Nat.shiftRight_eq_div_pow]
  exact Nat.mul_div_cancel a (Nat.pos_pow_of_pos n (by omega))

/-- Oring a value below 2 ^ n into a left-shifted value is addition. -/
theorem orDisjointAdd (a b n : Nat) (hb : b < 2 ^ n) :
    (a <<< n) ||| b = a * 2 ^ n + b := by
  have hpos : 0 < 2 ^ n := Nat.pos_pow_of_pos n (by omega)
  have h1 : ((a <<< n) ||| b) % 2 ^ n = b := by
    rw [orModTwoPow, Nat.shiftLeft_eq, Nat.mul_mod_left, Nat.mod_eq_of_lt hb]
    simp
  have h2 : ((a <<< n) ||| b) >>> n = a := by
    rw [orShiftRight, shiftLeftRightCancel, Nat.shiftRight_eq_div_pow,
      Nat.div_eq_of_lt hb]
    simp
  rw [Nat.shiftRight_eq_div_pow] at h2
  have h3 := Nat.div_add_mod ((a <<< n) ||| b) (2 ^ n)
  rw [h1, h2, Nat.mul_comm] at h3
  omega

/-- Xoring a value below 2 ^ n into a left-shifted value is addition. -/
theorem xorDisjointAdd (a b n : Nat) (hb : b < 2 ^ n) :
    (a <<< n) ^^^ b = a * 2 ^ n + b := by
  have hpos : 0 < 2 ^ n := Nat.pos_pow_of_pos n (by omega)
  have h1 : ((a <<< n) ^^^ b) % 2 ^ n = b := by
    rw [xorModTwoPow, Nat.shiftLeft_eq, Nat.mul_mod_left, Nat.mod_eq_of_lt hb]
    simp
  have h2 : ((a <<< n) ^^^ b) >>> n = a := by
    rw [xorShiftRight, shiftLeftRightCancel, Nat.shiftRight_eq_div_pow,
      Nat.div_eq_of_lt hb]
    simp
  rw [Nat.shiftRight_eq_div_pow] at h2
  have h3 := Nat.div_add_mod ((a <<< n) ^^^ b) (2 ^ n)
  rw [h1, h2, Nat.mul_comm] at h3
  omega

/-! Big-endian value of a symbol list at a fixed symbol width: the number the
symbols denote when concatenated most significant first. -/

/-- Big-endian value of a list of w-bit symbols. -/
def beVal (w : Nat) : List Nat → Nat
  | [] => 0
  | x :: xs => x * 2 ^ (w * xs.length) + beVal w xs

/-- beVal of an appended list. -/
theorem beValAppend (w : Nat) (xs ys : List Nat) :
    beVal w (xs ++ ys) = beVal w xs * 2 ^ (w * ys.length) + beVal w ys := by
  induction xs with
  | nil => simp [beVal]
  | cons x xs ih =>
    have hlen : (xs ++ ys).length = xs.length + ys.length := List.length_append xs ys
    show x * 2 ^ (w * (xs ++ ys).length) + beVal w (xs ++ ys) = _
    rw [hlen, ih]
    show _ = (x * 2 ^ (w * xs.length) + beVal w xs) * 2 ^ (w * ys.length) + beVal w ys
    have hp : 2 ^ (w * (xs.length + ys.length)) = 2 ^ (w * xs.length) * 2 ^ (w * ys.length) := by
      rw [← Nat.pow_add]
      ring_nf
    rw [hp]
    ring

/-- beVal of a single symbol. -/
theorem beValSingle (w x : Nat) : beVal w [x] = x := by
  simp [beVal]

/-- beVal is bounded when every symbol is in range. -/
theorem beValLt (w : Nat) (xs : List Nat) (h : ∀ v ∈ xs, v < 2 ^ w) :
    beVal w xs < 2 ^ (w * xs.length) := by
  induction xs with
  | nil => simp [beVal]
  | cons x xs ih =>
    have hx : x < 2 ^ w := h x (by simp)
    have hxs := ih (fun v hv => h v (by simp [hv]))
    show x * 2 ^ (w * xs.length) + beVal w xs < 2 ^ (w * (x :: xs).length)
    have h1 : 2 ^ (w * (x :: xs).length) = 2 ^ w * 2 ^ (w * xs.length) := by
      rw [← Nat.pow_add]
      congr 1
      simp [List.length_cons]
      ring
    rw [h1]
    calc x * 2 ^ (w * xs.length) + beVal w xs
        < x * 2 ^ (w * xs.length) + 2 ^ (w * xs.length) := by omega
      _ = (x + 1) * 2 ^ (w * xs.length) := by ring
      _ ≤ 2 ^ w * 2 ^ (w * xs.length) := Nat.mul_le_mul_right _ (by omega)

/-- Two symbol lists of the same length with in-range symbols and the same
big-endian value are equal. -/
theorem beValInj (w : Nat) : ∀ xs ys : List Nat, xs.length = ys.length →
    (∀ v ∈ xs, v < 2 ^ w) → (∀ v ∈ ys, v < 2 ^ w) →
    beVal w xs = beVal w ys → xs = ys := by
  intro xs
  induction xs with
  | nil =>
    intro ys hl _ _ _
    cases ys with
    | nil => rfl
    | cons y ys => simp at hl
  | cons x xs ih =>
    intro ys hl hx hy hv
    cases ys with
    | nil => simp at hl
    | cons y ys =>
      have hlen : xs.length = ys.length := by simpa using hl
      have hbx : beVal w xs < 2 ^ (w * xs.length) :=
        beValLt w xs (fun v hv => hx v (by simp [hv]))
      have hby : beVal w ys < 2 ^ (w * ys.length) :=
        beValLt w ys (fun v hv => hy v (by simp [hv]))
      have hv2 : x * 2 ^ (w * xs.length) + beVal w xs
          = y * 2 ^ (w * xs.length) + beVal w ys := by
        have : beVal w (x :: xs) = x * 2 ^ (w * xs.length) + beVal w xs := rfl
        have h2 : beVal w (y :: ys) = y * 2 ^ (w * ys.length) + beVal w ys := rfl
        rw [this, h2, ← hlen] at hv
        exact hv
      rw [← hlen] at hby
      have hxy : x = y := by
        rcases Nat.lt_trichotomy x y with h | h | h
        · exfalso
          have hstep : x * 2 ^ (w * xs.length) + 2 ^ (w * xs.length) ≤ y * 2 ^ (w * xs.length) := by
            calc x * 2 ^ (w * xs.length) + 2 ^ (w * xs.length)
                = (x + 1) * 2 ^ (w * xs.length) := by ring
              _ ≤ y * 2 ^ (w * xs.length) := Nat.mul_le_mul_right _ (by omega)
          omega
        · exact h
        · exfalso
          have hstep : y * 2 ^ (w * xs.length) + 2 ^ (w * xs.length) ≤ x * 2 ^ (w * xs.length) := by
            calc y * 2 ^ (w * xs.length) + 2 ^ (w * xs.length)
                = (y + 1) * 2 ^ (w * xs.length) := by ring
              _ ≤ x * 2 ^ (w * xs.length) := Nat.mul_le_mul_right _ (by omega)
          omega
      subst hxy
      have hb : beVal w xs = beVal w ys := by omega
      rw [ih ys hlen (fun v hv => hx v (by simp [hv])) (fun v hv => hy v (by simp [hv])) hb]

/-! Theory of the convertBits inner while-loop. -/

/-- The fuel of emitLoopF is irrelevant once it covers the bit count. -/
theorem emitLoopFIrrel : ∀ f1 f2 acc toBits mask bits out, bits ≤ f1 → bits ≤ f2 →
    emitLoopF f1 acc toBits mask bits out = emitLoopF f2 acc toBits mask bits out := by
  intro f1
  induction f1 with
  | zero =>
    intro f2 acc toBits mask bits out h1 h2
    have hb : bits = 0 := by omega
    subst hb
    cases f2 with
    | zero => rfl
    | succ g =>
      have hcond : ¬(toBits ≤ 0 ∧ 0 < toBits) := by omega
      show (0, out) = emitLoopF (g + 1) acc toBits mask 0 out
      simp only [emitLoopF]
      rw [if_neg hcond]
  | succ f ih =>
    intro f2 acc toBits mask bits out h1 h2
    cases f2 with
    | zero =>
      have hb : bits = 0 := by omega
      subst hb
      have hcond : ¬(toBits ≤ 0 ∧ 0 < toBits) := by omega
      show emitLoopF (f + 1) acc toBits mask 0 out = (0, out)
      simp only [emitLoopF]
      rw [if_neg hcond]
    | succ g =>
      show emitLoopF (f + 1) acc toBits mask bits out = emitLoopF (g + 1) acc toBits mask bits out
      simp only [emitLoopF]
      by_cases hcond : toBits ≤ bits ∧ 0 < toBits
      · simp only [if_pos hcond]
        exact ih g acc toBits mask (bits - toBits)
          (out ++ [(acc >>> (bits - toBits)) &&& mask]) (by omega) (by omega)
      · simp only [if_neg hcond]

/-- Unfolding equation of emitLoop matching the source while-loop. -/
theorem emitLoopEq (acc toBits mask bits : Nat) (out : List Nat) :
    emitLoop acc toBits mask bits out =
      if toBits ≤ bits ∧ 0 < toBits then
        emitLoop acc toBits mask (bits - toBits)
          (out ++ [(acc >>> (bits - toBits)) &&& mask])
      else (bits, out) := by
  cases bits with
  | zero =>
    have hcond : ¬(toBits ≤ 0 ∧ 0 < toBits) := by omega
    show emitLoopF 0 acc toBits mask 0 out = _
    rw [if_neg hcond]
    rfl
  | succ b =>
    show emitLoopF (b + 1) acc toBits mask (b + 1) out = _
    simp only [emitLoopF]
    by_cases hcond : toBits ≤ b + 1 ∧ 0 < toBits
    · simp only [if_pos hcond]
      exact emitLoopFIrrel b (b + 1 - toBits) acc toBits mask (b + 1 - toBits)
        (out ++ [(acc >>> (b + 1 - toBits)) &&& mask]) (by omega) (by omega)
    · simp only [if_neg hcond]

/-- Behaviour of the inner while-loop: the final bit count is the remainder
of bits by toBits, the emitted symbols are in range and extend the output,
and the value carried by output and leftover bits is preserved. -/
theorem emitLoopSpec (acc toBits : Nat) (hto : 0 < toBits) : ∀ bits out,
    ((emitLoop acc toBits (2 ^ toBits - 1) bits out).1 = bits % toBits) ∧
    (∃ δ, (emitLoop acc toBits (2 ^ toBits - 1) bits out).2 = out ++ δ ∧
      (∀ v ∈ δ, v < 2 ^ toBits) ∧
      toBits * δ.length + bits % toBits = bits) ∧
    (beVal toBits (emitLoop acc toBits (2 ^ toBits - 1) bits out).2 * 2 ^ (bits % toBits)
        + acc % 2 ^ (bits % toBits)
      = beVal toBits out * 2 ^ bits + acc % 2 ^ bits) := by
  intro bits
  induction bits using Nat.strong_induction_on with
  | _ bits ih =>
    intro out
    rw [emitLoopEq]
    by_cases hc : toBits ≤ bits ∧ 0 < toBits
    · simp only [if_pos hc]
      have hlt : bits - toBits < bits := by omega
      set s := (acc >>> (bits - toBits)) &&& (2 ^ toBits - 1) with hs
      obtain ⟨ih1, ⟨δ2, hδ2, hδlt, hδlen⟩, ih3⟩ := ih (bits - toBits) hlt (out ++ [s])
      have hmodeq : (bits - toBits) % toBits = bits % toBits := by
        conv_rhs => rw [← Nat.sub_add_cancel hc.1]
        rw [Nat.add_mod_right]
      refine ⟨?_, ⟨s :: δ2, ?_, ?_, ?_⟩, ?_⟩
      · rw [ih1, hmodeq]
      · rw [hδ2, List.append_assoc]
        rfl
      · intro v hv
        rcases List.mem_cons.mp hv with h | h
        · subst h
          rw [hs, Nat.and_pow_two_sub_one_eq_mod]
          exact Nat.mod_lt _ (Nat.pos_pow_of_pos toBits (by omega))
        · exact hδlt v h
      · rw [hmodeq] at hδlen
        simp only [List.length_cons]
        have hmul : toBits * (δ2.length + 1) = toBits * δ2.length + toBits := by ring
        omega
      · rw [hmodeq] at ih3
        rw [ih3]
        have hsval : s = (acc / 2 ^ (bits - toBits)) % 2 ^ toBits := by
          rw [hs, Nat.and_pow_two_sub_one_eq_mod, Nat.shiftRight_eq_div_pow]
        have hsplit : acc % 2 ^ bits
            = acc % 2 ^ (bits - toBits) + 2 ^ (bits - toBits) * s := by
          rw [hsval]
          have hpow : 2 ^ (bits - toBits) * 2 ^ toBits = 2 ^ bits := by
            rw [← Nat.pow_add]
            congr 1
            omega
          rw [← hpow]
          exact Nat.mod_mul
        have happ : beVal toBits (out ++ [s]) = beVal toBits out * 2 ^ toBits + s := by
          rw [beValAppend, beValSingle, List.length_cons, List.length_nil, Nat.mul_one]
        have hpw : 2 ^ toBits * 2 ^ (bits - toBits) = 2 ^ bits := by
          rw [← Nat.pow_add]
          congr 1
          omega
        rw [happ]
        calc (beVal toBits out * 2 ^ toBits + s) * 2 ^ (bits - toBits) + acc % 2 ^ (bits - toBits)
            = beVal toBits out * (2 ^ toBits * 2 ^ (bits - toBits))
              + (acc % 2 ^ (bits - toBits) + 2 ^ (bits - toBits) * s) := by ring
          _ = beVal toBits out * 2 ^ bits + acc % 2 ^ bits := by rw [hpw, ← hsplit]
    · simp only [if_neg hc]
      have hblt : bits < toBits := by omega
      have hm : bits % toBits = bits := Nat.mod_eq_of_lt hblt
      refine ⟨hm.symm ▸ rfl, ⟨[], by simp, by simp, by rw [hm]; simp⟩, by rw [hm]⟩

/-- One step of the convertBits accumulator: after the 32-bit shift-or
update, the low bits + fromBits bits hold the previous low bits followed by
the new value. -/
theorem accOneStep (acc v fromBits bits : Nat) (hf : fromBits ≤ 32)
    (hbits : bits ≤ 32 - fromBits) (hv : v % 4294967296 < 2 ^ fromBits) :
    (((acc <<< fromBits) % 4294967296) ||| (v % 4294967296)) % 2 ^ (bits + fromBits)
      = (acc % 2 ^ bits) * 2 ^ fromBits + v % 4294967296 := by
  have h232 : (4294967296 : Nat) = 2 ^ 32 := by norm_num
  have hsplit32 : (2 : Nat) ^ 32 = 2 ^ (32 - fromBits) * 2 ^ fromBits := by
    rw [← Nat.pow_add]
    congr 1
    omega
  have step1 : (acc <<< fromBits) % 4294967296
      = (acc % 2 ^ (32 - fromBits)) <<< fromBits := by
    rw [h232, Nat.shiftLeft_eq, hsplit32, Nat.mul_mod_mul_right, ← Nat.shiftLeft_eq]
  rw [step1, orDisjointAdd _ _ _ hv]
  have hpow : (2 : Nat) ^ (bits + fromBits) = 2 ^ fromBits * 2 ^ bits := by
    rw [← Nat.pow_add]
    congr 1
    omega
  have hfpos : 0 < 2 ^ fromBits := Nat.pos_pow_of_pos fromBits (by omega)
  have hx : (acc % 2 ^ (32 - fromBits)) * 2 ^ fromBits + v % 4294967296
      = 2 ^ fromBits * (acc % 2 ^ (32 - fromBits)) + v % 4294967296 := by ring
  rw [hpow, hx, Nat.mod_mul]
  have hmod : (2 ^ fromBits * (acc % 2 ^ (32 - fromBits)) + v % 4294967296) % 2 ^ fromBits
      = v % 4294967296 := by
    rw [Nat.mul_add_mod]
    exact Nat.mod_eq_of_lt hv
  have hdiv : (2 ^ fromBits * (acc % 2 ^ (32 - fromBits)) + v % 4294967296) / 2 ^ fromBits
      = acc % 2 ^ (32 - fromBits) := by
    rw [Nat.mul_add_div hfpos, Nat.div_eq_of_lt hv, Nat.add_zero]
  rw [hmod, hdiv, Nat.mod_mod_of_dvd acc (Nat.pow_dvd_pow 2 hbits)]
  ring

/-- Invariant of the convertBits outer loop on fitting input: it succeeds,
leaves fewer than toBits leftover bits, extends the output with in-range
symbols, and the value carried by output and leftover equals the previous
value shifted past the bits of the consumed input. -/
theorem convertBitsLoopSpec (fromBits toBits : Nat) (hto : 0 < toBits)
    (h32 : fromBits + toBits ≤ 32) :
    ∀ (data : List Nat) (acc bits : Nat) (out : List Nat), bits < toBits →
    (∀ v ∈ data, v % 4294967296 < 2 ^ fromBits) →
    ∃ accF bitsF outF,
      convertBitsLoop fromBits toBits (2 ^ toBits - 1) data acc bits out
        = .ok (accF, bitsF, outF) ∧
      bitsF < toBits ∧
      toBits * outF.length + bitsF = toBits * out.length + bits + fromBits * data.length ∧
      (∃ δ, outF = out ++ δ ∧ ∀ v ∈ δ, v < 2 ^ toBits) ∧
      beVal toBits outF * 2 ^ bitsF + accF % 2 ^ bitsF
        = (beVal toBits out * 2 ^ bits + acc % 2 ^ bits) * 2 ^ (fromBits * data.length)
          + beVal fromBits (data.map (fun v => v % 4294967296)) := by
  intro data
  induction data with
  | nil =>
    intro acc bits out hbits _
    refine ⟨acc, bits, out, rfl, hbits, by simp, ⟨[], by simp, by simp⟩, by simp [beVal]⟩
  | cons v rest ih =>
    intro acc bits out hbits hfit
    have hv : v % 4294967296 < 2 ^ fromBits := hfit v (by simp)
    have hguard : (v % 4294967296) >>> fromBits = 0 := by
      rw [Nat.shiftRight_eq_div_pow]
      exact Nat.div_eq_of_lt hv
    show ∃ accF bitsF outF,
      (if (v % 4294967296) >>> fromBits ≠ 0 then (.error .invalidArgument : Except AddrErr (Nat × Nat × List Nat))
       else
        let acc1 := ((acc <<< fromBits) % 4294967296) ||| (v % 4294967296)
        let st := emitLoop acc1 toBits (2 ^ toBits - 1) (bits + fromBits) out
        convertBitsLoop fromBits toBits (2 ^ toBits - 1) rest acc1 st.1 st.2) = _ ∧ _
    rw [if_neg (by simp [hguard])]
    set acc1 := ((acc <<< fromBits) % 4294967296) ||| (v % 4294967296) with hacc1
    obtain ⟨he1, ⟨δ, hδ, hδlt, hδlen⟩, he3⟩ :=
      emitLoopSpec acc1 toBits hto (bits + fromBits) out
    set st := emitLoop acc1 toBits (2 ^ toBits - 1) (bits + fromBits) out with hst
    have hst1lt : st.1 < toBits := by
      rw [he1]
      exact Nat.mod_lt _ hto
    obtain ⟨accF, bitsF, outF, hrun, hbF, hlen, ⟨δ2, hδ2, hδ2lt⟩, hΦ⟩ :=
      ih acc1 st.1 st.2 hst1lt (fun w hw => hfit w (by simp [hw]))
    refine ⟨accF, bitsF, outF, hrun, hbF, ?_, ⟨δ ++ δ2, ?_, ?_⟩, ?_⟩
    · rw [hlen, hδ, List.length_append, he1]
      have h1 : toBits * (out.length + δ.length) = toBits * out.length + toBits * δ.length := by
        ring
      simp only [List.length_cons]
      have h2 : fromBits * (rest.length + 1) = fromBits * rest.length + fromBits := by ring
      omega
    · rw [hδ2, hδ, List.append_assoc]
    · intro w hw
      rcases List.mem_append.mp hw with h | h
      · exact hδlt w h
      · exact hδ2lt w h
    · rw [hΦ, he1, he3]
      have hone : acc1 % 2 ^ (bits + fromBits)
          = (acc % 2 ^ bits) * 2 ^ fromBits + v % 4294967296 := by
        rw [hacc1]
        exact accOneStep acc v fromBits bits (by omega) (by omega) hv
      rw [hone]
      have hpw : (2 : Nat) ^ (bits + fromBits) = 2 ^ bits * 2 ^ fromBits := Nat.pow_add 2 bits fromBits
      have hbe : beVal fromBits ((v :: rest).map (fun w => w % 4294967296))
          = (v % 4294967296) * 2 ^ (fromBits * rest.length)
            + beVal fromBits (rest.map (fun w => w % 4294967296)) := by
        show (v % 4294967296) * 2 ^ (fromBits * (rest.map (fun w => w % 4294967296)).length) + _ = _
        rw [List.length_map]
      rw [hbe]
      simp only [List.length_cons]
      have hfr : fromBits * (rest.length + 1) = fromBits * rest.length + fromBits := by ring
      rw [hfr, hpw, Nat.pow_add]
      ring

/-- The padding symbol of convertBits is the leftover bits shifted left to
fill the output width. -/
theorem padSymEq (accF bitsF toBits : Nat) (hb : bitsF ≤ toBits) (ht32 : toBits ≤ 32) :
    ((accF <<< (toBits - bitsF)) % 4294967296) &&& (2 ^ toBits - 1)
      = (accF % 2 ^ bitsF) * 2 ^ (toBits - bitsF) := by
  rw [Nat.and_pow_two_sub_one_eq_mod]
  have h232 : (4294967296 : Nat) = 2 ^ 32 := by norm_num
  rw [h232, Nat.mod_mod_of_dvd _ (Nat.pow_dvd_pow 2 ht32), Nat.shiftLeft_eq]
  have hsplit : (2 : Nat) ^ toBits = 2 ^ bitsF * 2 ^ (toBits - bitsF) := by
    rw [← Nat.pow_add]
    congr 1
    omega
  rw [hsplit, Nat.mul_mod_mul_right]

/-- Cancellation of a common power on both sides of a split value. -/
theorem mulCancelHelp (A B P l : Nat) (hP : 0 < P) (hl : l < P)
    (he : A * P + l = B * P) : A = B ∧ l = 0 := by
  rcases Nat.lt_trichotomy A B with h | h | h
  · exfalso
    have hs : (A + 1) * P ≤ B * P := Nat.mul_le_mul_right P (by omega)
    have hx : (A + 1) * P = A * P + P := by ring
    omega
  · constructor
    · exact h
    · subst h
      omega
  · exfalso
    have hs : (B + 1) * P ≤ A * P := Nat.mul_le_mul_right P (by omega)
    have hx : (B + 1) * P = B * P + P := by ring
    omega

/-- Non-strict convertBits on fitting input: it succeeds, the output symbols
are in range, and the output value is the input value padded with zero bits
up to a multiple of the output width. -/
theorem convertBitsNonStrict (data : List Nat) (fromBits toBits : Nat) (hto : 0 < toBits)
    (h32 : fromBits + toBits ≤ 32) (hfit : ∀ v ∈ data, v % 4294967296 < 2 ^ fromBits) :
    ∃ Z, convertBits data fromBits toBits false = .ok Z ∧
      (∀ v ∈ Z, v < 2 ^ toBits) ∧
      toBits * Z.length = fromBits * data.length
        + (toBits - (fromBits * data.length) % toBits) % toBits ∧
      beVal toBits Z = beVal fromBits (data.map (fun v => v % 4294967296))
        * 2 ^ ((toBits - (fromBits * data.length) % toBits) % toBits) := by
  obtain ⟨accF, bitsF, outF, hrun, hbF, hlen, ⟨δ, hδ, hδlt⟩, hΦ⟩ :=
    convertBitsLoopSpec fromBits toBits hto h32 data 0 0 [] hto hfit
  simp only [List.length_nil, Nat.mul_zero, Nat.zero_add] at hlen
  have hΦ0 : beVal toBits ([] : List Nat) * 2 ^ 0 + 0 % 2 ^ 0 = 0 := by simp [beVal]
  rw [hΦ0, Nat.zero_mul, Nat.zero_add] at hΦ
  have hbitsF : bitsF = (fromBits * data.length) % toBits := by
    rw [← hlen, Nat.mul_add_mod, Nat.mod_eq_of_lt hbF]
  have houtlt : ∀ v ∈ outF, v < 2 ^ toBits := by
    rw [hδ]
    simpa using hδlt
  simp only [convertBits, maskEq]
  rw [hrun]
  by_cases hzero : 0 < bitsF
  · have hple : bitsF ≤ toBits := by omega
    have hpad := padSymEq accF bitsF toBits hple (by omega)
    simp only [if_pos rfl, if_pos hzero, hpad]
    refine ⟨_, rfl, ?_, ?_, ?_⟩
    · intro v hv
      rcases List.mem_append.mp hv with h | h
      · exact houtlt v h
      · have hv1 : v = (accF % 2 ^ bitsF) * 2 ^ (toBits - bitsF) := by simpa using h
        have hm : accF % 2 ^ bitsF < 2 ^ bitsF := Nat.mod_lt _ (Nat.pos_pow_of_pos _ (by omega))
        have : (accF % 2 ^ bitsF) * 2 ^ (toBits - bitsF) < 2 ^ bitsF * 2 ^ (toBits - bitsF) :=
          (Nat.mul_lt_mul_right (Nat.pos_pow_of_pos _ (by omega))).mpr hm
        have hpw : (2 : Nat) ^ bitsF * 2 ^ (toBits - bitsF) = 2 ^ toBits := by
          rw [← Nat.pow_add]
          congr 1
          omega
        omega
    · have hp : (toBits - (fromBits * data.length) % toBits) % toBits = toBits - bitsF := by
        rw [← hbitsF]
        exact Nat.mod_eq_of_lt (by omega)
      rw [hp, List.length_append, List.length_cons, List.length_nil]
      have : toBits * (outF.length + (0 + 1)) = toBits * outF.length + toBits := by ring
      omega
    · have hp : (toBits - (fromBits * data.length) % toBits) % toBits = toBits - bitsF := by
        rw [← hbitsF]
        exact Nat.mod_eq_of_lt (by omega)
      rw [hp, beValAppend, beValSingle, List.length_cons, List.length_nil, Nat.mul_one]
      have hpw : (2 : Nat) ^ toBits = 2 ^ bitsF * 2 ^ (toBits - bitsF) := by
        rw [← Nat.pow_add]
        congr 1
        omega
      rw [← hΦ, hpw]
      ring
  · have hb0 : bitsF = 0 := by omega
    subst hb0
    simp only [if_pos rfl, if_neg hzero]
    refine ⟨outF, rfl, houtlt, ?_, ?_⟩
    · rw [← hbitsF, Nat.sub_zero, Nat.mod_self, Nat.add_zero]
      omega
    · rw [← hbitsF, Nat.sub_zero, Nat.mod_self, Nat.pow_zero, Nat.mul_one]
      simpa [Nat.mod_one] using hΦ

/-- Strict convertBits on fitting input: the loop data, and the result as a
function of the leftover bit count and leftover value. -/
theorem convertBitsStrict (data : List Nat) (fromBits toBits : Nat) (hto : 0 < toBits)
    (h32 : fromBits + toBits ≤ 32) (hfit : ∀ v ∈ data, v % 4294967296 < 2 ^ fromBits) :
    ∃ accF bitsF outF,
      convertBitsLoop fromBits toBits (2 ^ toBits - 1) data 0 0 [] = .ok (accF, bitsF, outF) ∧
      bitsF = (fromBits * data.length) % toBits ∧
      bitsF < toBits ∧
      (∀ v ∈ outF, v < 2 ^ toBits) ∧
      toBits * outF.length + bitsF = fromBits * data.length ∧
      beVal toBits outF * 2 ^ bitsF + accF % 2 ^ bitsF
        = beVal fromBits (data.map (fun v => v % 4294967296)) ∧
      convertBits data fromBits toBits true
        = (if fromBits ≤ bitsF ∨ (accF % 2 ^ bitsF) * 2 ^ (toBits - bitsF) ≠ 0
           then .error .invalidPadding else .ok outF) := by
  obtain ⟨accF, bitsF, outF, hrun, hbF, hlen, ⟨δ, hδ, hδlt⟩, hΦ⟩ :=
    convertBitsLoopSpec fromBits toBits hto h32 data 0 0 [] hto hfit
  simp only [List.length_nil, Nat.mul_zero, Nat.zero_add] at hlen
  have hΦ0 : beVal toBits ([] : List Nat) * 2 ^ 0 + 0 % 2 ^ 0 = 0 := by simp [beVal]
  rw [hΦ0, Nat.zero_mul, Nat.zero_add] at hΦ
  have hbitsF : bitsF = (fromBits * data.length) % toBits := by
    rw [← hlen, Nat.mul_add_mod, Nat.mod_eq_of_lt hbF]
  have houtlt : ∀ v ∈ outF, v < 2 ^ toBits := by
    rw [hδ]
    simpa using hδlt
  refine ⟨accF, bitsF, outF, hrun, hbitsF, hbF, houtlt, hlen, hΦ, ?_⟩
  simp only [convertBits, maskEq]
  rw [hrun]
  have hpad := padSymEq accF bitsF toBits (by omega) (by omega)
  simp only [hpad]
  rfl

/-- A value failing the width check anywhere in the data makes the loop fail
with invalidArgument. -/
theorem convertBitsLoopBad (fromBits toBits mask : Nat) :
    ∀ (data : List Nat) (acc bits : Nat) (out : List Nat),
    (∃ v ∈ data, (v % 4294967296) >>> fromBits ≠ 0) →
    convertBitsLoop fromBits toBits mask data acc bits out = .error .invalidArgument := by
  intro data
  induction data with
  | nil =>
    intro acc bits out h
    obtain ⟨v, hv, _⟩ := h
    exact absurd hv (List.not_mem_nil v)
  | cons v rest ih =>
    intro acc bits out h
    show (if (v % 4294967296) >>> fromBits ≠ 0 then (.error .invalidArgument : Except AddrErr (Nat × Nat × List Nat))
       else
        let acc1 := ((acc <<< fromBits) % 4294967296) ||| (v % 4294967296)
        let st := emitLoop acc1 toBits mask (bits + fromBits) out
        convertBitsLoop fromBits toBits mask rest acc1 st.1 st.2) = .error .invalidArgument
    by_cases hg : (v % 4294967296) >>> fromBits ≠ 0
    · rw [if_pos hg]
    · rw [if_neg hg]
      obtain ⟨w, hw, hwbad⟩ := h
      rcases List.mem_cons.mp hw with h1 | h1
      · subst h1
        exact absurd hwbad hg
      · exact ih _ _ _ ⟨w, h1, hwbad⟩

/-- A value failing the width check makes convertBits fail with
invalidArgument in both modes. -/
theorem convertBitsBad (data : List Nat) (fromBits toBits : Nat) (strict : Bool)
    (h : ∃ v ∈ data, (v % 4294967296) >>> fromBits ≠ 0) :
    convertBits data fromBits toBits strict = .error .invalidArgument := by
  simp only [convertBits]
  rw [convertBitsLoopBad fromBits toBits ((1 <<< toBits) - 1) data 0 0 [] h]

/-- The loop only ever fails with invalidArgument. -/
theorem convertBitsLoopErrOnly (fromBits toBits mask : Nat) :
    ∀ (data : List Nat) (acc bits : Nat) (out : List Nat) (e : AddrErr),
    convertBitsLoop fromBits toBits mask data acc bits out = .error e →
    e = .invalidArgument := by
  intro data
  induction data with
  | nil =>
    intro acc bits out e h
    exact absurd h (by simp [convertBitsLoop])
  | cons v rest ih =>
    intro acc bits out e h
    by_cases hg : (v % 4294967296) >>> fromBits ≠ 0
    · simp only [convertBitsLoop, if_pos hg] at h
      exact (Except.error.inj h).symm
    · simp only [convertBitsLoop, if_neg hg] at h
      exact ih _ _ _ _ h

/-- convertBits only ever fails with invalidArgument or invalidPadding. -/
theorem convertBitsErrOnly (data : List Nat) (fromBits toBits : Nat) (strict : Bool)
    (e : AddrErr) (h : convertBits data fromBits toBits strict = .error e) :
    e = .invalidArgument ∨ e = .invalidPadding := by
  simp only [convertBits] at h
  cases hrun : convertBitsLoop fromBits toBits ((1 <<< toBits) - 1) data 0 0 [] with
  | error e2 =>
    rw [hrun] at h
    simp only at h
    left
    rw [← Except.error.inj h]
    exact convertBitsLoopErrOnly _ _ _ _ _ _ _ _ hrun
  | ok st =>
    obtain ⟨acc, bits, result⟩ := st
    rw [hrun] at h
    by_cases hs : strict = false
    · subst hs
      simp only [if_pos rfl] at h
      by_cases hb : 0 < bits
      · rw [if_pos hb] at h
        exact absurd h (by simp)
      · rw [if_neg hb] at h
        exact absurd h (by simp)
    · have hs2 : strict = true := by
        cases strict
        · exact absurd rfl hs
        · rfl
      subst hs2
      simp only [Bool.true_eq_false, if_neg] at h
      by_cases hc : fromBits ≤ bits ∨ ((acc <<< (toBits - bits)) % 4294967296) &&& ((1 <<< toBits) - 1) ≠ 0
      · rw [if_pos hc] at h
        right
        exact (Except.error.inj h).symm
      · rw [if_neg hc] at h
        exact absurd h (by simp)

/-- Regrouping roundtrip: strict 5-to-8 regrouping inverts non-strict 8-to-5
regrouping on byte sequences. -/
theorem convertBitsRoundtrip (xs : List Nat) (h : ∀ v ∈ xs, v < 256) (Z : List Nat)
    (hz : convertBits xs 8 5 false = .ok Z) : convertBits Z 5 8 true = .ok xs := by
  have hfit8 : ∀ v ∈ xs, v % 4294967296 < 2 ^ 8 := by
    intro v hv
    have := h v hv
    rw [Nat.mod_eq_of_lt (by omega)]
    omega
  obtain ⟨Z2, hZ2, hltZ, hlenZ, hvalZ⟩ :=
    convertBitsNonStrict xs 8 5 (by omega) (by omega) hfit8
  rw [hz] at hZ2
  have hZeq : Z = Z2 := Except.ok.inj hZ2
  subst hZeq
  have hmapxs : xs.map (fun v => v % 4294967296) = xs := by
    have hall : ∀ a ∈ xs, a % 4294967296 = a := by
      intro a ha
      exact Nat.mod_eq_of_lt (by have := h a ha; omega)
    exact (List.map_congr_left hall).trans (List.map_id' xs)
  rw [hmapxs] at hvalZ
  set n := xs.length with hn
  set p := (5 - 8 * n % 5) % 5 with hp
  have hplt : p < 5 := Nat.mod_lt _ (by omega)
  have hfitZ : ∀ v ∈ Z, v % 4294967296 < 2 ^ 5 := by
    intro v hv
    have := hltZ v hv
    rw [Nat.mod_eq_of_lt (by omega)]
    omega
  obtain ⟨accF, bitsF, outF, hrun2, hbitsF, hbF, hltF, hlenF, hΦ2, hres2⟩ :=
    convertBitsStrict Z 5 8 (by omega) (by omega) hfitZ
  have hmapZ : Z.map (fun v => v % 4294967296) = Z := by
    have hall : ∀ a ∈ Z, a % 4294967296 = a := by
      intro a ha
      exact Nat.mod_eq_of_lt (by have := hltZ a ha; omega)
    exact (List.map_congr_left hall).trans (List.map_id' Z)
  rw [hmapZ, hvalZ] at hΦ2
  have hbitsFp : bitsF = p := by
    rw [hbitsF, hlenZ]
    have h8 : (8 * n + p) % 8 = p := by
      rw [Nat.add_comm, Nat.add_mul_mod_self_left]
      exact Nat.mod_eq_of_lt (by omega)
    exact h8
  subst hbitsFp
  have hcancel := mulCancelHelp (beVal 8 outF) (beVal 8 xs) (2 ^ p) (accF % 2 ^ p)
    (Nat.pos_pow_of_pos _ (by omega)) (Nat.mod_lt _ (Nat.pos_pow_of_pos _ (by omega))) hΦ2
  have hlenxs : outF.length = n := by
    rw [hlenZ] at hlenF
    omega
  have houtxs : outF = xs := by
    apply beValInj 8 outF xs (by rw [hlenxs]) ?_ ?_ hcancel.1
    · intro v hv
      have := hltF v hv
      omega
    · intro v hv
      have := h v hv
      omega
  rw [hres2, if_neg ?_, houtxs]
  rw [not_or]
  constructor
  · omega
  · rw [hcancel.2, Nat.zero_mul]
    simp

/-! Theory of the polymod checksum: the loop body is affine over xor, which
makes the appended checksum symbols cancel the syndrome exactly. -/

/-- Conditional generator contribution for one topBits bit. -/
def bitG (b : Bool) (g : Nat) : Nat :=
  if b then g else 0

/-- Total generator contribution selected by the low five bits of topBits. -/
def gsum (t : Nat) : Nat :=
  bitG (t.testBit 0) 0x98f2bc8e61 ^^^ bitG (t.testBit 1) 0x79b76d99e2 ^^^
    bitG (t.testBit 2) 0xf33e5fb3c4 ^^^ bitG (t.testBit 3) 0xae2eabe2a8 ^^^
    bitG (t.testBit 4) 0x1e4f43e470

/-- The linear part of the polymod loop body. -/
def stepL (c : Nat) : Nat :=
  polymodStep c 0

theorem xorLeftComm (a b c : Nat) : a ^^^ (b ^^^ c) = b ^^^ (a ^^^ c) := by
  rw [← Nat.xor_assoc, Nat.xor_comm a b, Nat.xor_assoc]

theorem condTestBit (t i : Nat) : ((t >>> i) &&& 1 = 1) ↔ t.testBit i = true := by
  rw [Nat.and_one_is_mod, Nat.shiftRight_eq_div_pow, Nat.testBit_to_div_mod]
  simp

theorem iteXor (b : Bool) (w g : Nat) :
    (if b = true then w ^^^ g else w) = w ^^^ bitG b g := by
  cases b <;> simp [bitG]

/-- Normal form of the polymod loop body. -/
theorem polymodStepNF (c v : Nat) :
    polymodStep c v = (((c &&& 0x07ffffffff) <<< 5) ^^^ gsum (c >>> 35)) ^^^ v := by
  show (let topBits := c >>> 35
    let c0 := ((c &&& 0x07ffffffff) <<< 5) ^^^ v
    let c1 := if (topBits >>> 0) &&& 1 = 1 then c0 ^^^ 0x98f2bc8e61 else c0
    let c2 := if (topBits >>> 1) &&& 1 = 1 then c1 ^^^ 0x79b76d99e2 else c1
    let c3 := if (topBits >>> 2) &&& 1 = 1 then c2 ^^^ 0xf33e5fb3c4 else c2
    let c4 := if (topBits >>> 3) &&& 1 = 1 then c3 ^^^ 0xae2eabe2a8 else c3
    if (topBits >>> 4) &&& 1 = 1 then c4 ^^^ 0x1e4f43e470 else c4) = _
  simp only [condTestBit, iteXor, gsum]
  simp [Nat.xor_assoc, Nat.xor_comm, xorLeftComm]

/-- The loop body splits into its linear part and the xored-in symbol. -/
theorem polymodStepEq (c v : Nat) : polymodStep c v = stepL c ^^^ v := by
  rw [polymodStepNF, stepL, polymodStepNF, Nat.xor_zero]

theorem bitGXor (b1 b2 : Bool) (g : Nat) :
    bitG (b1.xor b2) g = bitG b1 g ^^^ bitG b2 g := by
  cases b1 <;> cases b2 <;> simp [bitG]

theorem gsumXor (a b : Nat) : gsum (a ^^^ b) = gsum a ^^^ gsum b := by
  unfold gsum
  simp only [Nat.testBit_xor, bitGXor]
  simp [Nat.xor_assoc, Nat.xor_comm, xorLeftComm]

/-- The linear part is additive over xor. -/
theorem stepLLinear (a b : Nat) : stepL (a ^^^ b) = stepL a ^^^ stepL b := by
  show polymodStep (a ^^^ b) 0 = polymodStep a 0 ^^^ polymodStep b 0
  rw [polymodStepNF, polymodStepNF, polymodStepNF, Nat.and_xor_distrib_right,
    xorShiftLeft, xorShiftRight, gsumXor]
  simp [Nat.xor_assoc, Nat.xor_comm, xorLeftComm]

theorem gsumLt (t : Nat) : gsum t < 2 ^ 40 := by
  unfold gsum bitG
  split_ifs <;> decide

theorem stepLLt (c : Nat) : stepL c < 2 ^ 40 := by
  rw [stepL, polymodStepNF, Nat.xor_zero]
  apply Nat.xor_lt_two_pow ?_ (gsumLt _)
  rw [Nat.shiftLeft_eq]
  have h1 : c &&& 0x07ffffffff ≤ 0x07ffffffff := Nat.and_le_right
  have h2 : (0x07ffffffff : Nat) < 2 ^ 35 := by norm_num
  calc (c &&& 0x07ffffffff) * 2 ^ 5 < 2 ^ 35 * 2 ^ 5 :=
        (Nat.mul_lt_mul_right (by norm_num)).mpr (by omega)
    _ = 2 ^ 40 := by norm_num

theorem polymodStepLt (c v : Nat) (hv : v < 2 ^ 40) : polymodStep c v < 2 ^ 40 := by
  rw [polymodStepEq]
  exact Nat.xor_lt_two_pow (stepLLt c) hv

/-- On small states the linear part is a plain shift. -/
theorem stepLSmall (c : Nat) (hc : c < 2 ^ 35) : stepL c = c <<< 5 := by
  rw [stepL, polymodStepNF, Nat.xor_zero]
  have hM : (0x07ffffffff : Nat) = 2 ^ 35 - 1 := by norm_num
  have htop : c >>> 35 = 0 := by
    rw [Nat.shiftRight_eq_div_pow]
    exact Nat.div_eq_of_lt hc
  rw [hM, Nat.and_pow_two_sub_one_of_lt_two_pow hc, htop]
  have hg : gsum 0 = 0 := by simp [gsum, bitG]
  rw [hg, Nat.xor_zero]

/-- Iterates of the linear part. -/
def stepLIter : Nat → Nat → Nat
  | 0, c => c
  | n + 1, c => stepLIter n (stepL c)

theorem stepLIterZero (c : Nat) : stepLIter 0 c = c := rfl

theorem stepLIterSucc (n c : Nat) : stepLIter (n + 1) c = stepLIter n (stepL c) := rfl

theorem stepLEqPoly (s : Nat) : polymodStep s 0 = stepL s := rfl

theorem checksumChunksZero (c : Nat) : checksumChunks 0 c = [] := rfl

theorem checksumChunksSucc (n c : Nat) :
    checksumChunks (n + 1) c = (c &&& 31) :: checksumChunks n (c >>> 5) := rfl

theorem stepLIterLt (n : Nat) : ∀ c, c < 2 ^ 40 → stepLIter n c < 2 ^ 40 := by
  induction n with
  | zero =>
    intro c hc
    rw [stepLIterZero]
    exact hc
  | succ n ih =>
    intro c _
    rw [stepLIterSucc]
    exact ih (stepL c) (stepLLt c)

theorem stepLIterLinear (n : Nat) : ∀ a b, stepLIter n (a ^^^ b) = stepLIter n a ^^^ stepLIter n b := by
  induction n with
  | zero =>
    intro a b
    rw [stepLIterZero, stepLIterZero, stepLIterZero]
  | succ n ih =>
    intro a b
    rw [stepLIterSucc, stepLIterSucc, stepLIterSucc, stepLLinear, ih]

theorem stepLIterComm (n : Nat) : ∀ c, stepLIter n (stepL c) = stepL (stepLIter n c) := by
  induction n with
  | zero =>
    intro c
    rw [stepLIterZero, stepLIterZero]
  | succ n ih =>
    intro c
    rw [stepLIterSucc, stepLIterSucc, ih (stepL c)]

theorem stepLIterShift (n : Nat) : ∀ x, 5 * n ≤ 40 → x < 2 ^ (40 - 5 * n) →
    stepLIter n x = x <<< (5 * n) := by
  induction n with
  | zero =>
    intro x _ _
    rw [stepLIterZero, Nat.mul_zero, Nat.shiftLeft_zero]
  | succ n ih =>
    intro x hn hx
    rw [stepLIterSucc]
    have hx35 : x < 2 ^ 35 := by
      apply Nat.lt_of_lt_of_le hx
      apply Nat.pow_le_pow_right (by omega)
      omega
    rw [stepLSmall x hx35]
    have hx5 : x <<< 5 < 2 ^ (40 - 5 * n) := by
      rw [Nat.shiftLeft_eq]
      have hpw : (2 : Nat) ^ (40 - 5 * n) = 2 ^ (40 - 5 * (n + 1)) * 2 ^ 5 := by
        rw [← Nat.pow_add]
        congr 1
        omega
      rw [hpw]
      exact (Nat.mul_lt_mul_right (by norm_num)).mpr hx
    rw [ih (x <<< 5) (by omega) hx5, ← Nat.shiftLeft_add]
    congr 1
    omega

/-- Folding the loop body over zero symbols iterates the linear part. -/
theorem foldZeros (k : Nat) : ∀ s, List.foldl polymodStep s (List.replicate k 0) = stepLIter k s := by
  induction k with
  | zero =>
    intro s
    rw [List.replicate_zero, List.foldl_nil, stepLIterZero]
  | succ k ih =>
    intro s
    rw [List.replicate_succ, List.foldl_cons, stepLEqPoly, ih (stepL s), stepLIterSucc]

/-- Folding the loop body over the reversed low-five-bit chunks of a value
xors that value into the iterated state. -/
theorem chunkFold : ∀ n c s, n ≤ 8 → s < 2 ^ 40 →
    List.foldl polymodStep s ((checksumChunks n c).reverse) = stepLIter n s ^^^ c % 2 ^ (5 * n) := by
  intro n
  induction n with
  | zero =>
    intro c s _ _
    rw [checksumChunksZero, List.reverse_nil, List.foldl_nil, stepLIterZero,
      Nat.mul_zero, Nat.pow_zero, Nat.mod_one, Nat.xor_zero]
  | succ n ih =>
    intro c s hn hs
    rw [checksumChunksSucc, List.reverse_cons, List.foldl_append, ih (c >>> 5) s (by omega) hs,
      List.foldl_cons, List.foldl_nil, polymodStepEq]
    set m := (c >>> 5) % 2 ^ (5 * n) with hm
    have hmlt : m < 2 ^ (5 * n) := Nat.mod_lt _ (Nat.pos_pow_of_pos _ (by omega))
    have hm35 : m < 2 ^ 35 := by
      apply Nat.lt_of_lt_of_le hmlt
      apply Nat.pow_le_pow_right (by omega)
      omega
    rw [stepLLinear, stepLSmall m hm35, stepLIterSucc, stepLIterComm n s, Nat.xor_assoc]
    congr 1
    have h31 : (31 : Nat) = 2 ^ 5 - 1 := by norm_num
    have hc31 : c &&& 31 = c % 2 ^ 5 := by
      rw [h31, Nat.and_pow_two_sub_one_eq_mod]
    rw [hc31, xorDisjointAdd m (c % 2 ^ 5) 5 (Nat.mod_lt _ (by norm_num))]
    have hpw : (2 : Nat) ^ (5 * (n + 1)) = 2 ^ 5 * 2 ^ (5 * n) := by
      rw [← Nat.pow_add]
      congr 1
      ring
    rw [hpw, Nat.mod_mul, hm, Nat.shiftRight_eq_div_pow]
    have h25 : (2 : Nat) ^ 5 = 32 := by norm_num
    rw [h25]
    omega

/-- The polymod loop preserves the 40-bit bound. -/
theorem polymodLoopLt : ∀ (data : List Nat) (s : Nat), s < 2 ^ 40 →
    (∀ v ∈ data, v < 2 ^ 40) → List.foldl polymodStep s data < 2 ^ 40 := by
  intro data
  induction data with
  | nil =>
    intro s hs _
    exact hs
  | cons v rest ih =>
    intro s hs hv
    rw [List.foldl_cons]
    exact ih (polymodStep s v) (polymodStepLt s v (hv v (by simp))) (fun w hw => hv w (by simp [hw]))

/-- Appending the eight checksum symbols derived from the polymod of the
message padded with eight zero symbols reduces the polymod to zero. -/
theorem polymodChecksum (msg : List Nat) (hm : ∀ v ∈ msg, v < 2 ^ 40) :
    polymod (msg ++ checksumToArray (polymod (msg ++ eight0))) = 0 := by
  have hS : List.foldl polymodStep 1 msg < 2 ^ 40 := polymodLoopLt msg 1 (by norm_num) hm
  set S := List.foldl polymodStep 1 msg with hSdef
  have he8 : eight0 = List.replicate 8 0 := rfl
  have hchk : polymod (msg ++ eight0) = stepLIter 8 S ^^^ 1 := by
    rw [polymod, List.foldl_append, ← hSdef, he8, foldZeros]
  have hT : stepLIter 8 S < 2 ^ 40 := stepLIterLt 8 S hS
  have hchklt : polymod (msg ++ eight0) < 2 ^ (5 * 8) := by
    rw [hchk]
    exact Nat.xor_lt_two_pow hT (by norm_num)
  rw [polymod, List.foldl_append, ← hSdef, checksumToArray,
    chunkFold 8 _ S (by omega) hS, Nat.mod_eq_of_lt hchklt, hchk,
    ← Nat.xor_assoc, Nat.xor_self, Nat.zero_xor, Nat.xor_self]

/-! Character-level facts and decoder composition lemmas. -/

theorem charsetLower : ∀ c ∈ CHARSET, toLowerChar c = c := by decide

theorem charsetNoColon : ∀ c ∈ CHARSET, c ≠ 58 := by decide

theorem b32RoundCharFin : ∀ s : Fin 32, b32DecodeChar (CHARSET.getD s.val 0) = some s.val := by
  decide

theorem b32RoundChar (v : Nat) (hv : v < 32) : b32DecodeChar (CHARSET.getD v 0) = some v :=
  b32RoundCharFin ⟨v, hv⟩

theorem charsetMemGetDFin : ∀ s : Fin 32, CHARSET.getD s.val 0 ∈ CHARSET := by
  decide

theorem charsetMemGetD (v : Nat) (hv : v < 32) : CHARSET.getD v 0 ∈ CHARSET :=
  charsetMemGetDFin ⟨v, hv⟩

/-- Base32 encode then decode is the identity on in-range symbol lists. -/
theorem b32Roundtrip : ∀ payload : List Nat, (∀ v ∈ payload, v < 32) →
    b32Decode (b32Encode payload) = .ok payload := by
  intro payload
  induction payload with
  | nil =>
    intro _
    rfl
  | cons v rest ih =>
    intro h
    show b32Decode (CHARSET.getD v 0 :: b32Encode rest) = _
    simp only [b32Decode, b32RoundChar v (h v (by simp)), ih (fun w hw => h w (by simp [hw]))]

theorem toLowerCharIdem (c : Nat) : toLowerChar (toLowerChar c) = toLowerChar c := by
  unfold toLowerChar
  split_ifs <;> omega

theorem toUpperCharIdem (c : Nat) : toUpperChar (toUpperChar c) = toUpperChar c := by
  unfold toUpperChar
  split_ifs <;> omega

theorem toLowerUpperChar (c : Nat) : toLowerChar (toUpperChar c) = toLowerChar c := by
  unfold toLowerChar toUpperChar
  split_ifs <;> omega

theorem toLowerStrIdem (s : List Nat) : toLowerStr (toLowerStr s) = toLowerStr s := by
  unfold toLowerStr
  rw [List.map_map]
  exact List.map_congr_left (fun c _ => toLowerCharIdem c)

theorem toUpperStrIdem (s : List Nat) : toUpperStr (toUpperStr s) = toUpperStr s := by
  unfold toUpperStr
  rw [List.map_map]
  exact List.map_congr_left (fun c _ => toUpperCharIdem c)

theorem toLowerUpperStr (s : List Nat) : toLowerStr (toUpperStr s) = toLowerStr s := by
  unfold toLowerStr toUpperStr
  rw [List.map_map]
  exact List.map_congr_left (fun c _ => toLowerUpperChar c)

theorem hasSingleCaseLower (s : List Nat) : hasSingleCase (toLowerStr s) = true := by
  unfold hasSingleCase
  rw [toLowerStrIdem]
  simp

theorem hasSingleCaseUpper (s : List Nat) : hasSingleCase (toUpperStr s) = true := by
  unfold hasSingleCase
  rw [toUpperStrIdem]
  simp

theorem hasSingleCaseOfLowerFixed (s : List Nat) (h : toLowerStr s = s) :
    hasSingleCase s = true := by
  unfold hasSingleCase
  rw [h]
  simp

/-- splitColon of a string without a colon. -/
theorem splitColonNone : ∀ s : List Nat, 58 ∉ s → splitColon s = [s] := by
  intro s
  induction s with
  | nil =>
    intro _
    rfl
  | cons c rest ih =>
    intro h
    have hc : c ≠ 58 := fun he => h (by simp [he])
    have hrest : 58 ∉ rest := fun he => h (by simp [he])
    show (match splitColon rest with
      | [] => if c = 58 then [[], []] else [[c]]
      | p :: ps => if c = 58 then [] :: p :: ps else (c :: p) :: ps) = _
    rw [ih hrest]
    simp [hc]

/-- splitColon of a prefixed string with a single colon separator. -/
theorem splitColonPfx : ∀ a b : List Nat, 58 ∉ a →
    splitColon (a ++ 58 :: b) = a :: splitColon b := by
  intro a
  induction a with
  | nil =>
    intro b _
    show (match splitColon b with
      | [] => if 58 = 58 then [[], []] else [[58]]
      | p :: ps => if 58 = 58 then [] :: p :: ps else (58 :: p) :: ps) = _
    cases hb : splitColon b with
    | nil =>
      exfalso
      cases b with
      | nil => exact absurd hb (by simp [splitColon])
      | cons x xs =>
        revert hb
        show (match splitColon xs with
          | [] => if x = 58 then [[], []] else [[x]]
          | p :: ps => if x = 58 then [] :: p :: ps else (x :: p) :: ps) = [] → False
        cases splitColon xs <;> split_ifs <;> simp
    | cons p ps => simp
  | cons c a ih =>
    intro b h
    have hc : c ≠ 58 := fun he => h (by simp [he])
    have ha : 58 ∉ a := fun he => h (by simp [he])
    show (match splitColon (a ++ 58 :: b) with
      | [] => if c = 58 then [[], []] else [[c]]
      | p :: ps => if c = 58 then [] :: p :: ps else (c :: p) :: ps) = _
    rw [ih b ha]
    simp [hc]

/-- Entries of the checksum chunks are five-bit values. -/
theorem checksumChunksLt : ∀ n c, ∀ v ∈ checksumChunks n c, v < 32 := by
  intro n
  induction n with
  | zero =>
    intro c v hv
    rw [checksumChunksZero] at hv
    exact absurd hv (List.not_mem_nil v)
  | succ n ih =>
    intro c v hv
    rw [checksumChunksSucc] at hv
    rcases List.mem_cons.mp hv with h | h
    · subst h
      have h31 : (31 : Nat) = 2 ^ 5 - 1 := by norm_num
      rw [h31, Nat.and_pow_two_sub_one_eq_mod]
      have : c % 2 ^ 5 < 2 ^ 5 := Nat.mod_lt _ (by norm_num)
      omega
    · exact ih (c >>> 5) v h

theorem checksumChunksLen : ∀ n c, (checksumChunks n c).length = n := by
  intro n
  induction n with
  | zero =>
    intro c
    rw [checksumChunksZero]
    rfl
  | succ n ih =>
    intro c
    rw [checksumChunksSucc, List.length_cons, ih (c >>> 5)]

theorem checksumToArrayLt (c : Nat) : ∀ v ∈ checksumToArray c, v < 32 := by
  intro v hv
  rw [checksumToArray, List.mem_reverse] at hv
  exact checksumChunksLt 8 c v hv

theorem checksumToArrayLen (c : Nat) : (checksumToArray c).length = 8 := by
  rw [checksumToArray, List.length_reverse, checksumChunksLen]

/-- The decoder tail on a payload of symbols followed by eight checksum
symbols: the checksum symbols are stripped and the rest is regrouped. -/
theorem decodeTailOk (Z C hash : List Nat) (vb : Nat) (t : CashaddrTypeEnum)
    (hC : C.length = 8)
    (hconv : convertBits Z 5 8 true = .ok (vb :: hash))
    (hsize : getHashSize vb = hash.length * 8)
    (htype : getType vb = .ok t) :
    decodeTail (Z ++ C) = .ok ⟨hash, t⟩ := by
  have htake : (Z ++ C).take ((Z ++ C).length - 8) = Z := by
    apply List.take_left'
    rw [List.length_append, hC]
    omega
  rw [decodeTail, htake, hconv]
  simp only
  rw [if_neg (by omega), htype]

/-- The size code produced by the encoder is at most seven. -/
theorem sizeBitsLe (hash : List Nat) (sc : Nat) (hsc : getHashSizeBits hash = .ok sc) :
    sc ≤ 7 := by
  unfold getHashSizeBits at hsc
  split at hsc <;> simp_all <;> omega

/-- The decoder inverts the version byte produced by the encoder: the hash
size table and the type bits round-trip through getHashSize and getType. -/
theorem sizeBitsInv (hash : List Nat) (sc : Nat) (hsc : getHashSizeBits hash = .ok sc)
    (t : CashaddrTypeEnum) :
    getHashSize (getTypeBits t + sc) = hash.length * 8 ∧
      getType (getTypeBits t + sc) = .ok t := by
  unfold getHashSizeBits at hsc
  split at hsc <;>
    first
    | (rename_i heq
       have hsc2 : sc = _ := (Except.ok.inj hsc).symm
       subst hsc2
       rw [heq]
       cases t <;> exact ⟨by decide, by decide⟩)
    | simp_all

/-- The encoder pipeline on a hash of supported size: its payload symbols,
their range, their strict regrouping back to version byte and hash, and the
produced address string. -/
theorem encodeParts (hash : List Nat) (t : CashaddrTypeEnum) (pfx : List Nat) (inc : Bool)
    (h256 : ∀ b ∈ hash, b < 256) (sc : Nat) (hsc : getHashSizeBits hash = .ok sc) :
    ∃ pd, convertBits ((getTypeBits t + sc) :: hash) 8 5 false = .ok pd ∧
      (∀ v ∈ pd, v < 32) ∧
      convertBits pd 5 8 true = .ok ((getTypeBits t + sc) :: hash) ∧
      hashToCashAddress hash t pfx inc
        = .ok (if inc
            then pfx ++ 58 :: b32Encode (pd ++ checksumToArray
              (polymod (((prefixToArray pfx ++ [0]) ++ pd) ++ eight0)))
            else b32Encode (pd ++ checksumToArray
              (polymod (((prefixToArray pfx ++ [0]) ++ pd) ++ eight0)))) := by
  have htb : getTypeBits t ≤ 8 := by cases t <;> decide
  have hsc7 := sizeBitsLe hash sc hsc
  have hfit : ∀ v ∈ (getTypeBits t + sc) :: hash, v % 4294967296 < 2 ^ 8 := by
    intro v hv
    rcases List.mem_cons.mp hv with h | h
    · subst h
      rw [Nat.mod_eq_of_lt (by omega)]
      omega
    · have := h256 v h
      rw [Nat.mod_eq_of_lt (by omega)]
      omega
  obtain ⟨pd, hpd, hlt, _, _⟩ :=
    convertBitsNonStrict ((getTypeBits t + sc) :: hash) 8 5 (by omega) (by omega) hfit
  have hlt32 : ∀ v ∈ pd, v < 32 := by
    intro v hv
    have := hlt v hv
    have h25 : (2 : Nat) ^ 5 = 32 := by norm_num
    omega
  have hall256 : ∀ v ∈ (getTypeBits t + sc) :: hash, v < 256 := by
    intro v hv
    rcases List.mem_cons.mp hv with h | h
    · subst h
      omega
    · exact h256 v h
  have hround := convertBitsRoundtrip ((getTypeBits t + sc) :: hash) hall256 pd hpd
  refine ⟨pd, hpd, hlt32, hround, ?_⟩
  simp only [hashToCashAddress, hsc, hpd]

/-- Existence of the size code for the supported hash byte lengths. -/
theorem sizeFromLen (hash : List Nat)
    (h : hash.length = 20 ∨ hash.length = 24 ∨ hash.length = 28 ∨ hash.length = 32 ∨
      hash.length = 40 ∨ hash.length = 48 ∨ hash.length = 56 ∨ hash.length = 64) :
    ∃ sc, getHashSizeBits hash = .ok sc := by
  rcases h with h | h | h | h | h | h | h | h
  · exact ⟨0, by simp [getHashSizeBits, h]⟩
  · exact ⟨1, by simp [getHashSizeBits, h]⟩
  · exact ⟨2, by simp [getHashSizeBits, h]⟩
  · exact ⟨3, by simp [getHashSizeBits, h]⟩
  · exact ⟨4, by simp [getHashSizeBits, h]⟩
  · exact ⟨5, by simp [getHashSizeBits, h]⟩
  · exact ⟨6, by simp [getHashSizeBits, h]⟩
  · exact ⟨7, by simp [getHashSizeBits, h]⟩

theorem pfxCharLowerFixed (c : Nat) (h : (97 ≤ c ∧ c ≤ 122) ∨ (48 ≤ c ∧ c ≤ 57)) :
    toLowerChar c = c := by
  unfold toLowerChar
  split_ifs <;> omega

theorem b32EncodeMemCharset (payload : List Nat) (h : ∀ v ∈ payload, v < 32) :
    ∀ c ∈ b32Encode payload, c ∈ CHARSET := by
  intro c hc
  obtain ⟨s, hs, hsc⟩ := List.mem_map.mp hc
  subst hsc
  exact charsetMemGetD s (h s hs)

theorem b32EncodeLowerFixed (payload : List Nat) (h : ∀ v ∈ payload, v < 32) :
    toLowerStr (b32Encode payload) = b32Encode payload := by
  unfold toLowerStr
  exact (List.map_congr_left
    (fun c hc => charsetLower c (b32EncodeMemCharset payload h c hc))).trans
    (List.map_id' _)

theorem b32EncodeNoColon (payload : List Nat) (h : ∀ v ∈ payload, v < 32) :
    58 ∉ b32Encode payload := by
  intro hmem
  exact charsetNoColon 58 (b32EncodeMemCharset payload h 58 hmem) rfl

theorem pfxLowerFixed (pfx : List Nat)
    (hpfx : ∀ c ∈ pfx, (97 ≤ c ∧ c ≤ 122) ∨ (48 ≤ c ∧ c ≤ 57)) :
    toLowerStr pfx = pfx := by
  unfold toLowerStr
  exact (List.map_congr_left (fun c hc => pfxCharLowerFixed c (hpfx c hc))).trans
    (List.map_id' _)

/-- C1: for every hash of a supported byte length, every address type and
every lowercase prefix, decoding the encoded address with that prefix as the
only candidate returns the original hash and type. -/
theorem C1_roundtrip (hash : List Nat) (t : CashaddrTypeEnum) (pfx : List Nat)
    (hlen : hash.length = 20 ∨ hash.length = 24 ∨ hash.length = 28 ∨ hash.length = 32 ∨
      hash.length = 40 ∨ hash.length = 48 ∨ hash.length = 56 ∨ hash.length = 64)
    (h256 : ∀ b ∈ hash, b < 256)
    (hpfx : ∀ c ∈ pfx, (97 ≤ c ∧ c ≤ 122) ∨ (48 ≤ c ∧ c ≤ 57)) :
    ∃ addr, hashToCashAddress hash t pfx true = .ok addr ∧
      cashAddressToHash addr [pfx] = .ok ⟨hash, t⟩ := by
  obtain ⟨sc, hsc⟩ := sizeFromLen hash hlen
  obtain ⟨pd, hpd, hpd32, hround, hout⟩ := encodeParts hash t pfx true h256 sc hsc
  rw [if_pos rfl] at hout
  set C := checksumToArray (polymod (((prefixToArray pfx ++ [0]) ++ pd) ++ eight0)) with hC
  set payload := pd ++ C with hpay
  have hpay32 : ∀ v ∈ payload, v < 32 := by
    intro v hv
    rcases List.mem_append.mp hv with h | h
    · exact hpd32 v h
    · exact checksumToArrayLt _ v h
  set enc := b32Encode payload with henc
  set addr := pfx ++ 58 :: enc with haddr
  refine ⟨addr, hout, ?_⟩
  have hpfxLower : toLowerStr pfx = pfx := pfxLowerFixed pfx hpfx
  have hencLower : toLowerStr enc = enc := b32EncodeLowerFixed payload hpay32
  have haddrLower : toLowerStr addr = addr := by
    rw [haddr]
    show List.map toLowerChar (pfx ++ 58 :: enc) = pfx ++ 58 :: enc
    rw [List.map_append, List.map_cons]
    rw [show toLowerChar 58 = 58 from by decide]
    show toLowerStr pfx ++ 58 :: toLowerStr enc = _
    rw [hpfxLower, hencLower]
  have hsingle : hasSingleCase addr = true := hasSingleCaseOfLowerFixed addr haddrLower
  have hnocolonPfx : 58 ∉ pfx := by
    intro h
    rcases hpfx 58 h with ⟨h1, h2⟩ | ⟨h1, h2⟩ <;> omega
  have hnocolonEnc : 58 ∉ enc := b32EncodeNoColon payload hpay32
  have hsplit : splitColon addr = [pfx, enc] := by
    rw [haddr, splitColonPfx pfx enc hnocolonPfx, splitColonNone enc hnocolonEnc]
  have hmsg40 : ∀ v ∈ (prefixToArray pfx ++ [0]) ++ pd, v < 2 ^ 40 := by
    intro v hv
    rcases List.mem_append.mp hv with h | h
    · rcases List.mem_append.mp h with h2 | h2
      · obtain ⟨c, _, hcv⟩ := List.mem_map.mp h2
        subst hcv
        have : c &&& 31 ≤ 31 := Nat.and_le_right
        omega
      · have : v = 0 := by simpa using h2
        omega
    · have := hpd32 v h
      omega
  have hvalid : validChecksum pfx payload = true := by
    unfold validChecksum
    rw [hpay, hC, ← List.append_assoc, polymodChecksum _ hmsg40]
    rfl
  have hdec : b32Decode (toLowerStr enc) = .ok payload := by
    rw [hencLower, henc]
    exact b32Roundtrip payload hpay32
  simp only [cashAddressToHash, hsingle]
  rw [if_neg (by simp)]
  simp only [haddrLower, hsplit]
  rw [if_neg (by simp)]
  simp only [List.length_cons, List.length_nil, List.getD]
  norm_num
  simp only [hdec]
  rw [if_neg (by simp [hvalid])]
  rw [hpay]
  exact decodeTailOk pd C hash (getTypeBits t + sc) t (by rw [hC, checksumToArrayLen])
    hround (sizeBitsInv hash sc hsc t).1 (sizeBitsInv hash sc hsc t).2

/-- Base32 decode only fails with invalidCharacter. -/
theorem b32DecodeErrOnly : ∀ (s : List Nat) (e : AddrErr),
    b32Decode s = .error e → e = .invalidCharacter := by
  intro s
  induction s with
  | nil =>
    intro e h
    exact absurd h (by simp [b32Decode])
  | cons c rest ih =>
    intro e h
    simp only [b32Decode] at h
    cases hc : b32DecodeChar c with
    | none =>
      rw [hc] at h
      simp at h
      exact h.symm
    | some v =>
      rw [hc] at h
      cases hr : b32Decode rest with
      | error e2 =>
        rw [hr] at h
        simp at h
        rw [← h]
        exact ih e2 hr
      | ok vs =>
        rw [hr] at h
        simp at h

/-- getType only fails with invalidType. -/
theorem getTypeErrOnly (vb : Nat) (e : AddrErr) (h : getType vb = .error e) :
    e = .invalidType := by
  unfold getType at h
  split at h <;> simp_all

/-- The decoder tail never fails with mixedCase. -/
theorem decodeTailNotMixed (payload : List Nat) (e : AddrErr)
    (h : decodeTail payload = .error e) : e ≠ .mixedCase := by
  unfold decodeTail at h
  cases hconv : convertBits (payload.take (payload.length - 8)) 5 8 true with
  | error e2 =>
    rw [hconv] at h
    simp only at h
    have h2 := Except.error.inj h
    subst h2
    rcases convertBitsErrOnly _ _ _ _ _ hconv with h3 | h3 <;> simp [h3]
  | ok res =>
    rw [hconv] at h
    cases res with
    | nil =>
      simp only at h
      have h2 := Except.error.inj h
      simp [← h2]
    | cons vb hash =>
      simp only at h
      by_cases hsz : getHashSize vb ≠ hash.length * 8
      · rw [if_pos hsz] at h
        have h2 := Except.error.inj h
        simp [← h2]
      · rw [if_neg hsz] at h
        cases hty : getType vb with
        | error e3 =>
          rw [hty] at h
          simp only at h
          have h2 := Except.error.inj h
          rw [← h2]
          have := getTypeErrOnly vb e3 hty
          simp [this]
        | ok t =>
          rw [hty] at h
          simp at h

/-- The decoder body after a passed case check never yields mixedCase. -/
theorem decodeBodyNotMixed (addr : List Nat) (cands : List (List Nat))
    (h : hasSingleCase addr = true) :
    cashAddressToHash addr cands ≠ .error .mixedCase := by
  simp only [cashAddressToHash, h]
  rw [if_neg (by simp)]
  split
  · simp
  · split
    · rename_i e hdec
      intro hcontra
      have h2 := Except.error.inj hcontra
      have h3 := b32DecodeErrOnly _ _ hdec
      simp [h3] at h2
    · split
      · split
        · simp
        · intro hcontra
          exact decodeTailNotMixed _ _ hcontra rfl
      · split
        · simp
        · intro hcontra
          exact decodeTailNotMixed _ _ hcontra rfl

/-- hasSingleCase spelled out. -/
theorem hasSingleCaseIff (s : List Nat) :
    hasSingleCase s = true ↔ (s = toLowerStr s ∨ s = toUpperStr s) := by
  unfold hasSingleCase
  simp

/-- C7: decoding fails with mixedCase exactly when the input string is
neither its own lowercase form nor its own uppercase form, and this check
precedes every other step. -/
theorem C7_mixedCase (addr : List Nat) (cands : List (List Nat)) :
    cashAddressToHash addr cands = .error .mixedCase
      ↔ ¬(addr = toLowerStr addr ∨ addr = toUpperStr addr) := by
  by_cases h : hasSingleCase addr = true
  · constructor
    · intro hcontra
      exact absurd hcontra (decodeBodyNotMixed addr cands h)
    · intro hrhs
      exact absurd ((hasSingleCaseIff addr).mp h) hrhs
  · have hfalse : hasSingleCase addr = false := by
      revert h
      cases hasSingleCase addr <;> simp
    constructor
    · intro _
      rw [← hasSingleCaseIff, hfalse]
      simp
    · intro _
      simp only [cashAddressToHash, hfalse]
      rw [if_pos trivial]

/-- Two single-case strings with the same lowercase form decode alike. -/
theorem decodeCaseCore (s s2 : List Nat) (cands : List (List Nat))
    (h1 : hasSingleCase s = true) (h2 : hasSingleCase s2 = true)
    (heq : toLowerStr s = toLowerStr s2) :
    cashAddressToHash s cands = cashAddressToHash s2 cands := by
  simp only [cashAddressToHash, h1, h2, heq]

/-- C8: a single-case address that decodes successfully yields the same
result when decoded in its all-uppercase and its all-lowercase form. -/
theorem C8_caseInsensitive (addr : List Nat) (cands : List (List Nat))
    (r : BitcoinCashScriptHash)
    (hsingle : hasSingleCase addr = true)
    (hok : cashAddressToHash addr cands = .ok r) :
    cashAddressToHash (toUpperStr addr) cands = .ok r ∧
      cashAddressToHash (toLowerStr addr) cands = .ok r := by
  have hlow : cashAddressToHash (toLowerStr addr) cands = cashAddressToHash addr cands :=
    decodeCaseCore _ _ cands (hasSingleCaseLower addr) hsingle (toLowerStrIdem addr)
  have hup : cashAddressToHash (toUpperStr addr) cands = cashAddressToHash addr cands :=
    decodeCaseCore _ _ cands (hasSingleCaseUpper addr) hsingle (toLowerUpperStr addr)
  exact ⟨hup.trans hok, hlow.trans hok⟩

/-- The candidate loop agrees with the first-match search. -/
theorem findValidPfxEq : ∀ (cands : List (List Nat)) (payload : List Nat),
    findValidPfx cands payload = cands.find? (fun p => validChecksum p payload) := by
  intro cands
  induction cands with
  | nil =>
    intro payload
    rfl
  | cons p rest ih =>
    intro payload
    show (if validChecksum p payload then some p else findValidPfx rest payload) = _
    by_cases h : validChecksum p payload
    · rw [if_pos h]
      exact (List.find?_cons_of_pos rest (by simpa using h)).symm
    · rw [if_neg h]
      exact (ih payload).trans (List.find?_cons_of_neg rest (by simpa using h)).symm

theorem findValidPfxNone : ∀ (cands : List (List Nat)) (payload : List Nat),
    (∀ p ∈ cands, validChecksum p payload = false) →
    findValidPfx cands payload = none := by
  intro cands
  induction cands with
  | nil =>
    intro payload _
    rfl
  | cons p rest ih =>
    intro payload h
    show (if validChecksum p payload then some p else findValidPfx rest payload) = _
    rw [if_neg (by simp [h p (by simp)]), ih payload (fun q hq => h q (by simp [hq]))]

theorem findValidPfxSome : ∀ (cands : List (List Nat)) (payload p : List Nat),
    findValidPfx cands payload = some p →
    p ∈ cands ∧ validChecksum p payload = true := by
  intro cands
  induction cands with
  | nil =>
    intro payload p h
    exact absurd h (by simp [findValidPfx])
  | cons q rest ih =>
    intro payload p h
    revert h
    show (if validChecksum q payload then some q else findValidPfx rest payload) = some p → _
    by_cases hq : validChecksum q payload
    · rw [if_pos hq]
      intro h
      have : q = p := by simpa using h
      subst this
      exact ⟨by simp, by simpa using hq⟩
    · rw [if_neg hq]
      intro h
      obtain ⟨h1, h2⟩ := ih payload p h
      exact ⟨by simp [h1], h2⟩

theorem noColonLower (addr : List Nat) (h : 58 ∉ addr) : 58 ∉ toLowerStr addr := by
  intro hmem
  obtain ⟨c, hc, hlc⟩ := List.mem_map.mp hmem
  have : c = 58 := by
    revert hlc
    unfold toLowerChar
    split_ifs <;> omega
  subst this
  exact h hc

/-- Evaluation of the decoder on a colon-free single-case address whose
base32 decode succeeds: it runs the candidate loop. -/
theorem decodeNoColonEval (addr : List Nat) (cands : List (List Nat)) (payload : List Nat)
    (hsingle : hasSingleCase addr = true) (hnc : 58 ∉ addr)
    (hdec : b32Decode (toLowerStr addr) = .ok payload) :
    cashAddressToHash addr cands
      = (match findValidPfx cands payload with
         | none => .error .invalidChecksum
         | some _ => decodeTail payload) := by
  have hsplit : splitColon (toLowerStr addr) = [toLowerStr addr] :=
    splitColonNone _ (noColonLower addr hnc)
  simp only [cashAddressToHash, hsingle]
  rw [if_neg (by simp)]
  simp only [hsplit, List.length_cons, List.length_nil]
  rw [if_neg (by omega)]
  rw [if_neg (by omega), if_neg (by omega)]
  simp only [List.getD, List.get?_cons_zero, Option.getD_some, toLowerStrIdem, hdec]

/-- Follows the spec wording of section 4.3, for comparison with the source
polymod: per symbol take the top five bits of the 40-bit checksum, mask the
checksum to 35 bits, shift left five and xor in the symbol, then xor in each
generator constant whose corresponding topBits bit is set. -/
def polymodSpecStep (checksum value : Nat) : Nat :=
  let topBits := checksum >>> 35
  let c := ((checksum &&& 0x07ffffffff) <<< 5) ^^^ value
  (List.range 5).foldl
    (fun acc i => if topBits.testBit i then acc ^^^ GENERATOR.getD i 0 else acc) c

/-- Follows the spec wording of section 4.3: start from checksum 1, process
every symbol, and xor the final checksum with 1. -/
def polymodSpec (data : List Nat) : Nat :=
  (data.foldl polymodSpecStep 1) ^^^ 1

theorem polymodSpecStepNF (c v : Nat) :
    polymodSpecStep c v = (((c &&& 0x07ffffffff) <<< 5) ^^^ gsum (c >>> 35)) ^^^ v := by
  show (List.range 5).foldl
      (fun acc i => if (c >>> 35).testBit i then acc ^^^ GENERATOR.getD i 0 else acc)
      (((c &&& 0x07ffffffff) <<< 5) ^^^ v) = _
  rw [show List.range 5 = [0, 1, 2, 3, 4] from by decide]
  simp only [List.foldl_cons, List.foldl_nil, GENERATOR, List.getD, List.get?,
    Option.getD_some, iteXor, gsum]
  simp [Nat.xor_assoc, Nat.xor_comm, xorLeftComm]

/-- C3: the source polymod computes exactly the reference BCH checksum
described in the spec, symbol by symbol. -/
theorem C3_polymod (data : List Nat) : polymod data = polymodSpec data := by
  have hstep : polymodStep = polymodSpecStep := by
    funext c v
    rw [polymodStepNF, polymodSpecStepNF]
  rw [polymod, polymodSpec, hstep]

/-- C4: on input fitting the source width, non-strict conversion appends one
left-padded symbol exactly when leftover bits remain, strict conversion
fails with invalidPadding exactly when the leftover bit count reaches
fromBits or the left-shifted leftover bits are non-zero, and an input value
failing the width check fails the call with invalidArgument in either mode. -/
theorem C4_convertBits (data : List Nat) (fromBits toBits : Nat)
    (hto : 0 < toBits) (h32 : fromBits + toBits ≤ 32) :
    ((∀ v ∈ data, v < 2 ^ fromBits) →
      ∃ acc bits out,
        convertBitsLoop fromBits toBits (2 ^ toBits - 1) data 0 0 [] = .ok (acc, bits, out) ∧
        convertBits data fromBits toBits false
          = .ok (if 0 < bits then out ++ [(acc % 2 ^ bits) * 2 ^ (toBits - bits)] else out) ∧
        (convertBits data fromBits toBits true = .error .invalidPadding
          ↔ (fromBits ≤ bits ∨ (acc % 2 ^ bits) * 2 ^ (toBits - bits) ≠ 0)) ∧
        (¬(fromBits ≤ bits ∨ (acc % 2 ^ bits) * 2 ^ (toBits - bits) ≠ 0) →
          convertBits data fromBits toBits true = .ok out)) ∧
    ((∀ v ∈ data, v < 4294967296) → (∃ v ∈ data, v >>> fromBits ≠ 0) →
      ∀ strict, convertBits data fromBits toBits strict = .error .invalidArgument) := by
  constructor
  · intro hfit
    have hfit2 : ∀ v ∈ data, v % 4294967296 < 2 ^ fromBits := by
      intro v hv
      have h1 := hfit v hv
      have h2 : (2 : Nat) ^ fromBits ≤ 2 ^ 32 := Nat.pow_le_pow_right (by omega) (by omega)
      rw [Nat.mod_eq_of_lt (by omega)]
      exact h1
    obtain ⟨accF, bitsF, outF, hrun, _, hbF, _, _, _, hres⟩ :=
      convertBitsStrict data fromBits toBits hto h32 hfit2
    refine ⟨accF, bitsF, outF, hrun, ?_, ?_, ?_⟩
    · simp only [convertBits, maskEq, hrun]
      by_cases h0 : 0 < bitsF
      · rw [if_pos trivial, if_pos h0, padSymEq accF bitsF toBits (by omega) (by omega), if_pos h0]
      · rw [if_pos trivial, if_neg h0, if_neg h0]
    · constructor
      · intro herr
        by_cases hc : fromBits ≤ bitsF ∨ (accF % 2 ^ bitsF) * 2 ^ (toBits - bitsF) ≠ 0
        · exact hc
        · rw [hres, if_neg hc] at herr
          exact absurd herr (by simp)
      · intro hc
        rw [hres, if_pos hc]
    · intro hc
      rw [hres, if_neg hc]
  · intro h32all hbad strict
    apply convertBitsBad
    obtain ⟨v, hv, hvbad⟩ := hbad
    refine ⟨v, hv, ?_⟩
    rw [Nat.mod_eq_of_lt (h32all v hv)]
    exact hvbad

/-- Follows the spec wording of section 4.4 step 1: the fixed size-code
table keyed by hash bit length. -/
def sizeCodeTableSpec (bits : Nat) : Option Nat :=
  if bits = 160 then some 0
  else if bits = 192 then some 1
  else if bits = 224 then some 2
  else if bits = 256 then some 3
  else if bits = 320 then some 4
  else if bits = 384 then some 5
  else if bits = 448 then some 6
  else if bits = 512 then some 7
  else none

theorem getHashSizeBitsTable (hash : List Nat) :
    getHashSizeBits hash
      = (match sizeCodeTableSpec (hash.length * 8) with
         | some sc => .ok sc
         | none => .error .unsupportedHashSize) := by
  unfold getHashSizeBits
  split <;> simp_all [sizeCodeTableSpec]

theorem sizeCodeTableNone (bits : Nat) :
    sizeCodeTableSpec bits = none ↔ bits ∉ [160, 192, 224, 256, 320, 384, 448, 512] := by
  unfold sizeCodeTableSpec
  split_ifs <;> simp_all

/-- C5: the encoder fails with unsupportedHashSize exactly when the hash bit
length is outside the supported table, and otherwise the version byte it
embeds is the type bits plus the size code: regrouping the emitted payload
symbols strictly back to bytes recovers that version byte followed by the
hash. -/
theorem C5_versionByte (hash : List Nat) (t : CashaddrTypeEnum) (pfx : List Nat) (inc : Bool)
    (h256 : ∀ b ∈ hash, b < 256) :
    (hashToCashAddress hash t pfx inc = .error .unsupportedHashSize
      ↔ hash.length * 8 ∉ [160, 192, 224, 256, 320, 384, 448, 512]) ∧
    (∀ sc, sizeCodeTableSpec (hash.length * 8) = some sc →
      ∃ pd cs, hashToCashAddress hash t pfx inc
          = .ok (if inc then pfx ++ 58 :: b32Encode (pd ++ cs) else b32Encode (pd ++ cs)) ∧
        convertBits pd 5 8 true = .ok ((getTypeBits t + sc) :: hash)) := by
  constructor
  · cases htab : sizeCodeTableSpec (hash.length * 8) with
    | none =>
      have herr : getHashSizeBits hash = .error .unsupportedHashSize := by
        rw [getHashSizeBitsTable, htab]
      constructor
      · intro _
        exact (sizeCodeTableNone _).mp htab
      · intro _
        simp only [hashToCashAddress, herr]
    | some sc =>
      have hsc : getHashSizeBits hash = .ok sc := by
        rw [getHashSizeBitsTable, htab]
      obtain ⟨pd, _, _, _, hout⟩ := encodeParts hash t pfx inc h256 sc hsc
      constructor
      · intro hcontra
        rw [hout] at hcontra
        exact absurd hcontra (by simp)
      · intro hmem
        exact absurd htab (by simp [(sizeCodeTableNone _).mpr hmem])
  · intro sc htab
    have hsc : getHashSizeBits hash = .ok sc := by
      rw [getHashSizeBitsTable, htab]
    obtain ⟨pd, _, _, hround, hout⟩ := encodeParts hash t pfx inc h256 sc hsc
    exact ⟨pd, _, hout, hround⟩

/-- C6: without an explicit prefix, the decoder resolves the prefix to the
first candidate in list order whose checksum validates, and fails with
invalidChecksum when no candidate validates. -/
theorem C6_prefixResolution (payload : List Nat) (cands : List (List Nat)) (addr : List Nat) :
    findValidPfx cands payload = cands.find? (fun p => validChecksum p payload) ∧
    (hasSingleCase addr = true → 58 ∉ addr →
      b32Decode (toLowerStr addr) = .ok payload →
      ((∀ p ∈ cands, validChecksum p payload = false) →
        cashAddressToHash addr cands = .error .invalidChecksum) ∧
      (∀ p, findValidPfx cands payload = some p →
        p ∈ cands ∧ validChecksum p payload = true ∧
        cashAddressToHash addr cands = decodeTail payload)) := by
  refine ⟨findValidPfxEq cands payload, ?_⟩
  intro hsingle hnc hdec
  have heval := decodeNoColonEval addr cands payload hsingle hnc hdec
  constructor
  · intro hall
    rw [heval, findValidPfxNone cands payload hall]
  · intro p hp
    obtain ⟨h1, h2⟩ := findValidPfxSome cands payload p hp
    refine ⟨h1, h2, ?_⟩
    rw [heval, hp]

/-- A successful decode factors through the decoder tail on some payload. -/
theorem decodeOkTail (addr : List Nat) (cands : List (List Nat)) (r : BitcoinCashScriptHash)
    (hok : cashAddressToHash addr cands = .ok r) :
    ∃ payload, decodeTail payload = .ok r := by
  by_cases h : hasSingleCase addr = true
  · simp only [cashAddressToHash, h] at hok
    rw [if_neg (by simp)] at hok
    split at hok
    · exact absurd hok (by simp)
    · split at hok
      · exact absurd hok (by simp)
      · rename_i payload _
        split at hok
        · split at hok
          · exact absurd hok (by simp)
          · exact ⟨payload, hok⟩
        · split at hok
          · exact absurd hok (by simp)
          · exact ⟨payload, hok⟩
  · have hfalse : hasSingleCase addr = false := by
      revert h
      cases hasSingleCase addr <;> simp
    simp only [cashAddressToHash, hfalse] at hok
    rw [if_pos trivial] at hok
    exact absurd hok (by simp)

/-- Inversion of the decoder tail: a successful result consists of the hash
bytes after the version byte of the strict regrouping, with type and size
derived from that version byte. -/
theorem decodeTailInv (payload : List Nat) (r : BitcoinCashScriptHash)
    (h : decodeTail payload = .ok r) :
    ∃ vb, convertBits (payload.take (payload.length - 8)) 5 8 true = .ok (vb :: r.scriptHash) ∧
      getType vb = .ok r.type ∧ getHashSize vb = r.scriptHash.length * 8 := by
  unfold decodeTail at h
  split at h
  · exact absurd h (by simp)
  · exact absurd h (by simp)
  · rename_i vb hash heq
    split at h
    · exact absurd h (by simp)
    · rename_i hsz
      split at h
      · exact absurd h (by simp)
      · rename_i t hty
        have hr : r = ⟨hash, t⟩ := (Except.ok.inj h).symm
        subst hr
        refine ⟨vb, heq, hty, ?_⟩
        show getHashSize vb = hash.length * 8
        omega

/-- C2 amended: a successful decode returns the hash bytes and the address
type only; they are the tail and head-derived type of the strictly
regrouped payload, and no prefix is part of the result. -/
theorem C2_resultShape (addr : List Nat) (cands : List (List Nat)) (r : BitcoinCashScriptHash)
    (hok : cashAddressToHash addr cands = .ok r) :
    ∃ payload vb,
      decodeTail payload = .ok r ∧
      convertBits (payload.take (payload.length - 8)) 5 8 true = .ok (vb :: r.scriptHash) ∧
      getType vb = .ok r.type ∧
      getHashSize vb = r.scriptHash.length * 8 := by
  obtain ⟨payload, hpay⟩ := decodeOkTail addr cands r hok
  obtain ⟨vb, h1, h2, h3⟩ := decodeTailInv payload r hpay
  exact ⟨payload, vb, hpay, h1, h2, h3⟩

/-- The zero hash of twenty bytes, used by the concrete decoding examples. -/
def zeros20 : List Nat :=
  List.replicate 20 0

/-- Address encoding the zero 20-byte hash as pubkeyhash under prefix a. -/
def addrPfxA : List Nat :=
  [97, 58, 113, 113, 113, 113, 113, 113, 113, 113, 113, 113, 113, 113, 113, 113, 113, 113,
   113, 113, 113, 113, 113, 113, 113, 113, 113, 113, 113, 113, 113, 113, 113, 113, 113, 113,
   52, 51, 100, 112, 112, 57, 106, 107]

/-- Address encoding the zero 20-byte hash as pubkeyhash under prefix b. -/
def addrPfxB : List Nat :=
  [98, 58, 113, 113, 113, 113, 113, 113, 113, 113, 113, 113, 113, 113, 113, 113, 113, 113,
   113, 113, 113, 113, 113, 113, 113, 113, 113, 113, 113, 113, 113, 113, 113, 113, 113, 113,
   102, 110, 99, 118, 53, 117, 102, 54]

/-- C2 counterexample: two addresses whose resolved network prefixes differ
decode to identical results, so the decoder output contains no prefix
component; the source return type carries only scriptHash and type. -/
theorem C2_counterexample :
    cashAddressToHash addrPfxA [[97]] = .ok ⟨zeros20, .pubkeyhash⟩ ∧
    cashAddressToHash addrPfxB [[98]] = .ok ⟨zeros20, .pubkeyhash⟩ ∧
    cashAddressToHash addrPfxA [[97]] = cashAddressToHash addrPfxB [[98]] ∧
    addrPfxA ≠ addrPfxB ∧ ([97] : List Nat) ≠ [98] := by
  refine ⟨by decide, by decide, ?_, by decide, by decide⟩
  have h1 : cashAddressToHash addrPfxA [[97]] = .ok ⟨zeros20, .pubkeyhash⟩ := by decide
  have h2 : cashAddressToHash addrPfxB [[98]] = .ok ⟨zeros20, .pubkeyhash⟩ := by decide
  rw [h1, h2]

/-- Address whose embedded version byte is 128 (bit 7 set, type bits 0,
size code 0), checksum-valid for prefix a over the zero 20-byte hash. -/
def addrBit7 : List Nat :=
  [115, 113, 113, 113, 113, 113, 113, 113, 113, 113, 113, 113, 113, 113, 113, 113, 113,
   113, 113, 113, 113, 113, 113, 113, 113, 113, 113, 113, 113, 113, 113, 113, 113, 113,
   121, 110, 99, 56, 50, 117, 117, 114]

/-- The canonical address for the same hash and type under prefix a, with
version byte 0. -/
def addrNoPfxA : List Nat :=
  [113, 113, 113, 113, 113, 113, 113, 113, 113, 113, 113, 113, 113, 113, 113, 113, 113,
   113, 113, 113, 113, 113, 113, 113, 113, 113, 113, 113, 113, 113, 113, 113, 113, 113,
   52, 51, 100, 112, 112, 57, 106, 107]

/-- C9: the decoder reads only bits 0 to 6 of the version byte, so setting
bit 7 changes neither the derived type nor the derived hash size, and a
checksum-valid address whose version byte is 128 decodes to the same hash
and type as the distinct canonical address with version byte 0. -/
theorem C9_bit7Ignored :
    (∀ vb : Fin 128, getType (vb.val + 128) = getType vb.val ∧
      getHashSize (vb.val + 128) = getHashSize vb.val) ∧
    (b32Decode (toLowerStr addrBit7)).map
        (fun p => convertBits (p.take (p.length - 8)) 5 8 true)
      = .ok (.ok (128 :: zeros20)) ∧
    cashAddressToHash addrBit7 [[97]] = .ok ⟨zeros20, .pubkeyhash⟩ ∧
    cashAddressToHash addrNoPfxA [[97]] = .ok ⟨zeros20, .pubkeyhash⟩ ∧
    addrBit7 ≠ addrNoPfxA :=
  ⟨by decide, by decide, by decide, by decide, by decide⟩

/-- Prefixes whose characters agree modulo 32 produce the same salt. -/
theorem prefixToArrayModEq : ∀ (p q : List Nat), p.length = q.length →
    (∀ i, i < p.length → p.getD i 0 % 32 = q.getD i 0 % 32) →
    prefixToArray p = prefixToArray q := by
  intro p
  induction p with
  | nil =>
    intro q hlen _
    cases q with
    | nil => rfl
    | cons b q => simp at hlen
  | cons a p ih =>
    intro q hlen hmod
    cases q with
    | nil => simp at hlen
    | cons b q =>
      have hab : a % 32 = b % 32 := by
        have := hmod 0 (by simp)
        simpa using this
      have hrest : prefixToArray p = prefixToArray q := by
        apply ih q (by simpa using hlen)
        intro i hi
        have := hmod (i + 1) (by simp only [List.length_cons]; omega)
        simpa [List.getD_cons_succ] using this
      show (a &&& 31) :: prefixToArray p = (b &&& 31) :: prefixToArray q
      rw [hrest]
      congr 1
      have h31 : (31 : Nat) = 2 ^ 5 - 1 := by norm_num
      rw [h31, Nat.and_pow_two_sub_one_eq_mod, Nat.and_pow_two_sub_one_eq_mod]
      have h25 : (2 : Nat) ^ 5 = 32 := by norm_num
      rw [h25]
      exact hab

/-- C10: the checksum salt uses only the low five bits of each prefix
character, so prefixes agreeing modulo 32 validate the same payloads and
make the encoder emit the same payload and checksum symbols. -/
theorem C10_prefixSalt (p q : List Nat) (hlen : p.length = q.length)
    (hmod : ∀ i, i < p.length → p.getD i 0 % 32 = q.getD i 0 % 32) :
    (∀ payload, validChecksum p payload = validChecksum q payload) ∧
    (∀ (hash : List Nat) (t : CashaddrTypeEnum),
      hashToCashAddress hash t p false = hashToCashAddress hash t q false) := by
  have hpta : prefixToArray p = prefixToArray q := prefixToArrayModEq p q hlen hmod
  constructor
  · intro payload
    unfold validChecksum
    rw [hpta]
  · intro hash t
    simp only [hashToCashAddress, hpta]
    simp

/-- The bitcoincash network tag as character codes. -/
def bchPfx : List Nat :=
  [98, 105, 116, 99, 111, 105, 110, 99, 97, 115, 104]

/-- The full address for the zero hash under the bitcoincash prefix. -/
def addrBch : List Nat :=
  [98, 105, 116, 99, 111, 105, 110, 99, 97, 115, 104, 58,
   113, 113, 113, 113, 113, 113, 113, 113, 113, 113, 113, 113, 113, 113, 113, 113, 113,
   113, 113, 113, 113, 113, 113, 113, 113, 113, 113, 113, 113, 113, 113, 113, 113, 113,
   102, 110, 104, 107, 115, 54, 48, 51]

/-- The decoded symbol payload of addrNoPfxA. -/
def payloadA : List Nat :=
  [0, 0, 0, 0, 0, 0, 0, 0, 0, 0, 0, 0, 0, 0, 0, 0, 0,
   0, 0, 0, 0, 0, 0, 0, 0, 0, 0, 0, 0, 0, 0, 0, 0, 0,
   21, 17, 13, 1, 1, 5, 18, 22]

theorem C1_roundtrip_witness :
    (zeros20.length = 20 ∨ zeros20.length = 24 ∨ zeros20.length = 28 ∨ zeros20.length = 32 ∨
      zeros20.length = 40 ∨ zeros20.length = 48 ∨ zeros20.length = 56 ∨ zeros20.length = 64) ∧
    (∀ b ∈ zeros20, b < 256) ∧
    (∀ c ∈ bchPfx, (97 ≤ c ∧ c ≤ 122) ∨ (48 ≤ c ∧ c ≤ 57)) ∧
    (∃ addr, hashToCashAddress zeros20 .pubkeyhash bchPfx true = .ok addr ∧
      cashAddressToHash addr [bchPfx] = .ok ⟨zeros20, .pubkeyhash⟩) :=
  ⟨by decide, by decide, by decide,
    C1_roundtrip zeros20 .pubkeyhash bchPfx (by decide) (by decide) (by decide)⟩

theorem C2_resultShape_witness :
    cashAddressToHash addrPfxA [[97]] = .ok ⟨zeros20, .pubkeyhash⟩ ∧
    (∃ payload vb,
      decodeTail payload = .ok ⟨zeros20, .pubkeyhash⟩ ∧
      convertBits (payload.take (payload.length - 8)) 5 8 true = .ok (vb :: zeros20) ∧
      getType vb = .ok CashaddrTypeEnum.pubkeyhash ∧
      getHashSize vb = zeros20.length * 8) :=
  ⟨by decide, C2_resultShape addrPfxA [[97]] ⟨zeros20, .pubkeyhash⟩ (by decide)⟩

theorem C4_convertBits_witness :
    ((0 : Nat) < 5 ∧ 8 + 5 ≤ 32) ∧
    (((∀ v ∈ [255, 1], v < 2 ^ 8) →
      ∃ acc bits out,
        convertBitsLoop 8 5 (2 ^ 5 - 1) [255, 1] 0 0 [] = .ok (acc, bits, out) ∧
        convertBits [255, 1] 8 5 false
          = .ok (if 0 < bits then out ++ [(acc % 2 ^ bits) * 2 ^ (5 - bits)] else out) ∧
        (convertBits [255, 1] 8 5 true = .error .invalidPadding
          ↔ (8 ≤ bits ∨ (acc % 2 ^ bits) * 2 ^ (5 - bits) ≠ 0)) ∧
        (¬(8 ≤ bits ∨ (acc % 2 ^ bits) * 2 ^ (5 - bits) ≠ 0) →
          convertBits [255, 1] 8 5 true = .ok out)) ∧
    ((∀ v ∈ [255, 1], v < 4294967296) → (∃ v ∈ [255, 1], v >>> 8 ≠ 0) →
      ∀ strict, convertBits [255, 1] 8 5 strict = .error .invalidArgument)) :=
  ⟨⟨by decide, by decide⟩, C4_convertBits [255, 1] 8 5 (by decide) (by decide)⟩

theorem C5_versionByte_witness :
    (∀ b ∈ zeros20, b < 256) ∧
    ((hashToCashAddress zeros20 .scripthash [97] true = .error .unsupportedHashSize
      ↔ zeros20.length * 8 ∉ [160, 192, 224, 256, 320, 384, 448, 512]) ∧
    (∀ sc, sizeCodeTableSpec (zeros20.length * 8) = some sc →
      ∃ pd cs, hashToCashAddress zeros20 .scripthash [97] true
          = .ok (if true then [97] ++ 58 :: b32Encode (pd ++ cs) else b32Encode (pd ++ cs)) ∧
        convertBits pd 5 8 true = .ok ((getTypeBits .scripthash + sc) :: zeros20))) :=
  ⟨by decide, C5_versionByte zeros20 .scripthash [97] true (by decide)⟩

theorem C6_prefixResolution_witness :
    hasSingleCase addrNoPfxA = true ∧ 58 ∉ addrNoPfxA ∧
    b32Decode (toLowerStr addrNoPfxA) = .ok payloadA ∧
    cashAddressToHash addrNoPfxA [[98], [99]] = .error .invalidChecksum ∧
    cashAddressToHash addrNoPfxA [[98], [97]] = decodeTail payloadA :=
  ⟨by decide, by decide, by decide,
    ((C6_prefixResolution payloadA [[98], [99]] addrNoPfxA).2
      (by decide) (by decide) (by decide)).1 (by decide),
    (((C6_prefixResolution payloadA [[98], [97]] addrNoPfxA).2
      (by decide) (by decide) (by decide)).2 [97] (by decide)).2.2⟩

theorem C8_caseInsensitive_witness :
    hasSingleCase addrBch = true ∧
    cashAddressToHash addrBch [bchPfx] = .ok ⟨zeros20, .pubkeyhash⟩ ∧
    (cashAddressToHash (toUpperStr addrBch) [bchPfx] = .ok ⟨zeros20, .pubkeyhash⟩ ∧
      cashAddressToHash (toLowerStr addrBch) [bchPfx] = .ok ⟨zeros20, .pubkeyhash⟩) :=
  ⟨by decide, by decide,
    C8_caseInsensitive addrBch [bchPfx] ⟨zeros20, .pubkeyhash⟩ (by decide) (by decide)⟩

theorem C10_prefixSalt_witness :
    ([97, 98] : List Nat).length = ([65, 66] : List Nat).length ∧
    (∀ i, i < ([97, 98] : List Nat).length →
      ([97, 98] : List Nat).getD i 0 % 32 = ([65, 66] : List Nat).getD i 0 % 32) ∧
    ((∀ payload, validChecksum [97, 98] payload = validChecksum [65, 66] payload) ∧
    (∀ (hash : List Nat) (t : CashaddrTypeEnum),
      hashToCashAddress hash t [97, 98] false = hashToCashAddress hash t [65, 66] false)) :=
  ⟨by decide, by decide, C10_prefixSalt [97, 98] [65, 66] (by decide) (by decide)⟩
